import Mathlib

/-!
Verification of the sourmash MinHash sketch engine.

This file gives a shallow embedding, in Lean 4, of the two C++ revisions of
the sketch engine found in the repository:

  * `src/sourmash/kmer_min_hash.hh`      (the newer revision; classes
    `KmerMinHash` and `KmerMinAbundance`), and
  * `src/sourmash_lib/kmer_min_hash.hh`  (the older revision).

64-bit hash values are modelled as `Nat` (the operations only compare hashes,
they never wrap), `std::vector<uint64_t>` as `List Nat`, C++ exceptions as
`Except String`.  The MurmurHash3 hash function lives in third-party code that
is not part of the repository, so every sequence-level operation is
parameterised by an arbitrary hash function `hf : String → Nat → Nat`
standing for `_hash_murmur`.

The embedded operations are followed by a collection of theorems settling the
claims about the engine: the characterisation of `add_hash` folds, merge and
compatibility behaviour, DNA canonicalisation, protein translation, and the
extensional comparison of the two revisions.
-/

/-- The IUPAC complement table of both revisions (`#define tbl` in
`kmer_min_hash.hh`): 64 leading spaces, then the complement characters
indexed by ASCII code. -/
def tbl : List Char :=
  List.replicate 64 ' ' ++
    (" TVGH FCD  M KN   YSAABW R       TVGH FCD  M KN   YSAABW R").toList

/-- Complement of a single character: `tbl[(int)c]`, reading past the table
as the null character (the C++ code never does for the inputs we consider). -/
def tblc (c : Char) : Char := tbl.getD c.toNat ' '

/-- `KmerMinHash::_revcomp` (identical in both revisions): the two-pointer
swap loop writes `tbl[s[n-1-i]]` into position `i`, i.e. it returns the
reverse of the character-wise complement. -/
def _revcomp (s : List Char) : List Char := (s.map tblc).reverse

/-- `KmerMinHash::_checkdna` (identical in both revisions): every character
must be one of `A`, `C`, `G`, `T`. -/
def _checkdna : List Char → Bool
  | [] => true
  | c :: rest => if c = 'A' ∨ c = 'C' ∨ c = 'G' ∨ c = 'T' then _checkdna rest else false

/-- The index returned by `std::lower_bound(begin(mins), end(mins), h)` on a
sorted vector: the first position whose element is not less than `h`
(`mins.length` when every element is smaller). -/
def lowerBound (l : List Nat) (h : Nat) : Nat :=
  match l with
  | [] => 0
  | x :: xs => if x < h then lowerBound xs h + 1 else 0

/-- `mins.back()`, defined only when the vector is nonempty (every use below
is guarded by a nonemptiness check, as in the C++ code). -/
def backD (l : List Nat) : Nat := l.getLastD 0

/-- `KmerMinHash::add_hash` (identical logic in `src/sourmash` lines 98-121
and `src/sourmash_lib` lines 93-116), as a function of the `num` / `max_hash`
configuration and the `mins` vector.

```
if ((max_hash and h <= max_hash) or not max_hash) {
  if (mins.size() == 0) { mins.push_back(h); return; }
  else if (h <= max_hash or mins.back() > h or mins.size() < num) {
    auto pos = std::lower_bound(begin(mins), end(mins), h);
    if (pos == mins.cend()) { mins.push_back(h); }
    else if (*pos != h) {
      mins.insert(pos, h);
      if (num and mins.size() > num) { mins.pop_back(); }
    }
  }
}
```
-/
def add_hash_mins (num max_hash : Nat) (mins : List Nat) (h : Nat) : List Nat :=
  if (max_hash ≠ 0 ∧ h ≤ max_hash) ∨ max_hash = 0 then
    if mins.length = 0 then [h]
    else if h ≤ max_hash ∨ h < backD mins ∨ mins.length < num then
      if lowerBound mins h = mins.length then mins ++ [h]
      else if mins.getD (lowerBound mins h) 0 ≠ h then
        if num ≠ 0 ∧ num < (mins.insertIdx (lowerBound mins h) h).length
        then (mins.insertIdx (lowerBound mins h) h).dropLast
        else mins.insertIdx (lowerBound mins h) h
      else mins
    else mins
  else mins

/-- The state of a `KmerMinHash` object: the immutable configuration fields
plus the `mins` vector.  (`src/sourmash` adds the `dayhoff` flag to the
older revision's fields; the older revision simply never reads it.) -/
structure KmerMinHash where
  num : Nat
  ksize : Nat
  is_protein : Bool
  dayhoff : Bool
  seed : Nat
  max_hash : Nat
  mins : List Nat
deriving DecidableEq, Repr

/-- `KmerMinHash::add_hash` acting on the object state. -/
def KmerMinHash.add_hash (s : KmerMinHash) (h : Nat) : KmerMinHash :=
  { s with mins := add_hash_mins s.num s.max_hash s.mins h }

/-- Folding `add_hash` over a list of hashes (the `add_many` operation, and
the effect of any sequence of `add_hash` calls), at the `mins` level. -/
def add_many_mins (num max_hash : Nat) (mins : List Nat) (l : List Nat) : List Nat :=
  l.foldl (add_hash_mins num max_hash) mins

/-- Folding `KmerMinHash.add_hash` over a list of hashes. -/
def KmerMinHash.add_many (s : KmerMinHash) (l : List Nat) : KmerMinHash :=
  l.foldl KmerMinHash.add_hash s

/-- `KmerMinHash::remove_hash` (`src/sourmash` lines 123-128): erase the
element at the lower-bound position if it equals `h`. -/
def KmerMinHash.remove_hash (s : KmerMinHash) (h : Nat) : KmerMinHash :=
  if lowerBound s.mins h ≠ s.mins.length ∧ s.mins.getD (lowerBound s.mins h) 0 = h then
    { s with mins := s.mins.eraseIdx (lowerBound s.mins h) }
  else s

/-- `std::set_union` on two sorted ranges, as used by `KmerMinHash::merge`
(`other.mins` is the first range, `mins` the second). -/
def set_union : List Nat → List Nat → List Nat
  | [], l2 => l2
  | l1, [] => l1
  | a :: l1, b :: l2 =>
    if a < b then a :: set_union l1 (b :: l2)
    else if b < a then b :: set_union (a :: l1) l2
    else a :: set_union l1 l2
termination_by l1 l2 => l1.length + l2.length

/-- The element count of `std::set_intersection` on two sorted ranges, as
used by `KmerMinHash::count_common` via the push-back counting `Counter`. -/
def set_inter_count : List Nat → List Nat → Nat
  | [], _ => 0
  | _, [] => 0
  | a :: l1, b :: l2 =>
    if a < b then set_inter_count l1 (b :: l2)
    else if b < a then set_inter_count (a :: l1) l2
    else 1 + set_inter_count l1 l2
termination_by l1 l2 => l1.length + l2.length

/-- `KmerMinHash::check_compatible` (`src/sourmash` lines 80-96): compares
`ksize`, `is_protein`, `dayhoff`, `max_hash` and `seed` — and nothing else —
throwing on the first mismatch.  (The older revision omits the `dayhoff`
comparison, having no such field.) -/
def check_compatible (a b : KmerMinHash) : Except String Unit :=
  if a.ksize ≠ b.ksize then .error "different ksizes cannot be compared"
  else if a.is_protein ≠ b.is_protein then .error "DNA/prot minhashes cannot be compared"
  else if a.dayhoff ≠ b.dayhoff then .error "DNA/prot minhashes cannot be compared"
  else if a.max_hash ≠ b.max_hash then .error "mismatch in max_hash; comparison fail"
  else if a.seed ≠ b.seed then .error "mismatch in seed; comparison fail"
  else .ok ()

/-- `KmerMinHash::merge` (`src/sourmash` lines 285-299, identical in the
older revision): check compatibility, set-union `other.mins` with `mins`,
and keep only the first `num` entries unless `num` is 0 or the union is
small enough.  The receiver is not modified before the compatibility check,
so a thrown mismatch leaves it unchanged; the `Except` result models this. -/
def KmerMinHash.merge (a b : KmerMinHash) : Except String KmerMinHash :=
  match check_compatible a b with
  | .error e => .error e
  | .ok _ =>
    if (set_union b.mins a.mins).length < a.num ∨ a.num = 0 then
      .ok { a with mins := set_union b.mins a.mins }
    else
      .ok { a with mins := (set_union b.mins a.mins).take a.num }

/-- `KmerMinHash::count_common` (`src/sourmash` lines 301-309): check
compatibility, then count the sorted-range intersection.  It never mutates
either sketch. -/
def count_common (a b : KmerMinHash) : Except String Nat :=
  match check_compatible a b with
  | .error e => .error e
  | .ok _ => .ok (set_inter_count a.mins b.mins)

/-- The state of a `KmerMinAbundance` object: the `KmerMinHash` fields plus
the parallel `abunds` vector. -/
structure KmerMinAbundance where
  num : Nat
  ksize : Nat
  is_protein : Bool
  dayhoff : Bool
  seed : Nat
  max_hash : Nat
  mins : List Nat
  abunds : List Nat
deriving DecidableEq, Repr

/-- `KmerMinAbundance::add_hash` (`src/sourmash` lines 408-446, identical in
the older revision at lines 297-335), as a function of the configuration and
the parallel `mins` / `abunds` vectors.  Differences from the unweighted
version: a fresh hash is inserted with abundance 1, a duplicate increments
its abundance, and the shrink step additionally requires `not max_hash`. -/
def add_hash_ma (num max_hash : Nat) (mins abunds : List Nat) (h : Nat) :
    List Nat × List Nat :=
  if (max_hash ≠ 0 ∧ h ≤ max_hash) ∨ max_hash = 0 then
    if mins.length = 0 then ([h], [1])
    else if h ≤ max_hash ∨ h < backD mins ∨ mins.length < num then
      if lowerBound mins h = mins.length then (mins ++ [h], abunds ++ [1])
      else if mins.getD (lowerBound mins h) 0 ≠ h then
        if num < (mins.insertIdx (lowerBound mins h) h).length ∧ max_hash = 0 then
          ((mins.insertIdx (lowerBound mins h) h).dropLast,
           (abunds.insertIdx (lowerBound mins h) 1).dropLast)
        else
          (mins.insertIdx (lowerBound mins h) h, abunds.insertIdx (lowerBound mins h) 1)
      else
        (mins, abunds.set (lowerBound mins h) (abunds.getD (lowerBound mins h) 0 + 1))
    else (mins, abunds)
  else (mins, abunds)

deriving instance DecidableEq for Except

/-- `KmerMinAbundance::add_hash` acting on the object state. -/
def KmerMinAbundance.add_hash (s : KmerMinAbundance) (h : Nat) : KmerMinAbundance :=
  { s with mins := (add_hash_ma s.num s.max_hash s.mins s.abunds h).1,
           abunds := (add_hash_ma s.num s.max_hash s.mins s.abunds h).2 }

/-- `KmerMinAbundance::remove_hash` (`src/sourmash` lines 448-455): erase the
hash at the lower-bound position, and the abundance at the same index, if the
element there equals `h`. -/
def KmerMinAbundance.remove_hash (s : KmerMinAbundance) (h : Nat) : KmerMinAbundance :=
  if lowerBound s.mins h ≠ s.mins.length ∧ s.mins.getD (lowerBound s.mins h) 0 = h then
    { s with mins := s.mins.eraseIdx (lowerBound s.mins h),
             abunds := s.abunds.eraseIdx (lowerBound s.mins h) }
  else s

/-- The abundance a weighted sketch records for `h`: the entry of `abunds`
parallel to the position of `h` in `mins` (0 when `h` is not retained). -/
def abundanceOf (mins abunds : List Nat) (h : Nat) : Nat :=
  if h ∈ mins then abunds.getD (mins.indexOf h) 0 else 0

/-- The merging loop shared verbatim by `KmerMinAbundance::merge` in both
revisions (`src/sourmash` lines 467-510, `src/sourmash_lib` lines 347-390):
a sorted-sequence union of `mins`/`abunds` (arguments 1 and 2) with
`other.mins`/`other.abunds` (arguments 3 and 4) in which the abundances of a
hash held by both sides are added. -/
def merge_loop : List Nat → List Nat → List Nat → List Nat → List Nat × List Nat
  | [], _, m2, a2 => (m2, a2)
  | x :: m1, a1, [], _ => (x :: m1, a1)
  | x :: m1, a1, y :: m2, a2 =>
    if y < x then
      ((merge_loop (x :: m1) a1 m2 a2.tail).1.cons y,
       (merge_loop (x :: m1) a1 m2 a2.tail).2.cons (a2.headD 0))
    else if y = x then
      ((merge_loop m1 a1.tail m2 a2.tail).1.cons x,
       (merge_loop m1 a1.tail m2 a2.tail).2.cons (a1.headD 0 + a2.headD 0))
    else
      ((merge_loop m1 a1.tail (y :: m2) a2).1.cons x,
       (merge_loop m1 a1.tail (y :: m2) a2).2.cons (a1.headD 0))
termination_by m1 _ m2 _ => m1.length + m2.length

/-- `KmerMinHash::check_compatible` as inherited by `KmerMinAbundance`:
identical field comparisons on the weighted state. -/
def check_compatible_ma (a b : KmerMinAbundance) : Except String Unit :=
  if a.ksize ≠ b.ksize then .error "different ksizes cannot be compared"
  else if a.is_protein ≠ b.is_protein then .error "DNA/prot minhashes cannot be compared"
  else if a.dayhoff ≠ b.dayhoff then .error "DNA/prot minhashes cannot be compared"
  else if a.max_hash ≠ b.max_hash then .error "mismatch in max_hash; comparison fail"
  else if a.seed ≠ b.seed then .error "mismatch in seed; comparison fail"
  else .ok ()

/-- `KmerMinAbundance::merge` of `src/sourmash` (lines 457-519): after the
abundance-summing union, the result replaces the receiver's vectors, truncated
to the first `num` entries when `num` is nonzero and exceeded
(`merged_mins.size() < num || !num`). -/
def KmerMinAbundance.merge (a b : KmerMinAbundance) : Except String KmerMinAbundance :=
  match check_compatible_ma a b with
  | .error e => .error e
  | .ok _ =>
    if (merge_loop a.mins a.abunds b.mins b.abunds).1.length < a.num ∨ a.num = 0 then
      .ok { a with mins := (merge_loop a.mins a.abunds b.mins b.abunds).1,
                   abunds := (merge_loop a.mins a.abunds b.mins b.abunds).2 }
    else
      .ok { a with mins := (merge_loop a.mins a.abunds b.mins b.abunds).1.take a.num,
                   abunds := (merge_loop a.mins a.abunds b.mins b.abunds).2.take a.num }

/-- `KmerMinAbundance::merge` of `src/sourmash_lib` (lines 337-399): identical
to the newer revision except for the final guard, which reads
`merged_mins.size() < num` with no `|| !num` escape for unbounded sketches. -/
def KmerMinAbundance.mergeLib (a b : KmerMinAbundance) : Except String KmerMinAbundance :=
  match check_compatible_ma a b with
  | .error e => .error e
  | .ok _ =>
    if (merge_loop a.mins a.abunds b.mins b.abunds).1.length < a.num then
      .ok { a with mins := (merge_loop a.mins a.abunds b.mins b.abunds).1,
                   abunds := (merge_loop a.mins a.abunds b.mins b.abunds).2 }
    else
      .ok { a with mins := (merge_loop a.mins a.abunds b.mins b.abunds).1.take a.num,
                   abunds := (merge_loop a.mins a.abunds b.mins b.abunds).2.take a.num }

/-! ### Basic facts about `lowerBound`, `backD` and `orderedInsert` -/

theorem lb_le (l : List Nat) (h : Nat) : lowerBound l h ≤ l.length := by
  induction l with
  | nil => simp [lowerBound]
  | cons x xs ih =>
    simp only [lowerBound, List.length_cons]
    split
    · omega
    · omega

theorem lb_eq_length_iff (l : List Nat) (h : Nat) :
    lowerBound l h = l.length ↔ ∀ x ∈ l, x < h := by
  induction l with
  | nil => simp [lowerBound]
  | cons x xs ih =>
    simp only [lowerBound, List.length_cons, List.mem_cons]
    split
    · constructor
      · intro he y hy
        rcases hy with rfl | hy
        · assumption
        · exact (ih.mp (by omega)) y hy
      · intro hall
        have := ih.mpr (fun y hy => hall y (Or.inr hy))
        omega
    · rename_i hx
      constructor
      · intro he
        exact absurd he (by omega)
      · intro hall
        exact absurd (hall x (Or.inl rfl)) hx

theorem getD_mem (l : List Nat) (i : Nat) (hi : i < l.length) : l.getD i 0 ∈ l := by
  rw [List.getD_eq_getElem l 0 hi]
  exact List.getElem_mem hi

theorem lb_getD_ge (l : List Nat) (h : Nat) (hlt : lowerBound l h < l.length) :
    h ≤ l.getD (lowerBound l h) 0 := by
  induction l with
  | nil => simp at hlt
  | cons x xs ih =>
    simp only [lowerBound] at hlt ⊢
    split
    · rename_i hx
      simp only [hx, if_pos] at hlt
      have := ih (by simpa [hx] using (by simp [lowerBound, hx] at hlt ⊢; omega : lowerBound xs h < xs.length))
      simpa using this
    · rename_i hx
      simp only [List.getD_cons_zero]
      omega

theorem lb_take_lt (l : List Nat) (h : Nat) : ∀ x ∈ l.take (lowerBound l h), x < h := by
  induction l with
  | nil => simp [lowerBound]
  | cons y xs ih =>
    simp only [lowerBound]
    split
    · rename_i hy
      intro x hx
      simp only [List.take_succ_cons, List.mem_cons] at hx
      rcases hx with rfl | hx
      · exact hy
      · exact ih x hx
    · simp

theorem sorted_lb_getD {l : List Nat} {h : Nat} (hs : l.Sorted (· < ·)) (hm : h ∈ l) :
    lowerBound l h < l.length ∧ l.getD (lowerBound l h) 0 = h := by
  induction l with
  | nil => simp at hm
  | cons x xs ih =>
    rcases List.mem_cons.mp hm with rfl | hm
    · simp [lowerBound]
    · have hx : x < h := (List.sorted_cons.mp hs).1 h hm
      have := ih (List.sorted_cons.mp hs).2 hm
      simp only [lowerBound, hx, if_pos, List.length_cons, List.getD_cons_succ]
      omega

theorem sorted_lb_indexOf {l : List Nat} {h : Nat} (hs : l.Sorted (· < ·)) (hm : h ∈ l) :
    lowerBound l h = l.indexOf h := by
  induction l with
  | nil => simp at hm
  | cons x xs ih =>
    rcases List.mem_cons.mp hm with rfl | hm
    · simp [lowerBound, List.indexOf_cons_self]
    · by_cases hxh : x = h
      · subst hxh
        simp [lowerBound, List.indexOf_cons_self]
      · have hx : x < h := (List.sorted_cons.mp hs).1 h hm
        have := ih (List.sorted_cons.mp hs).2 hm
        simp only [lowerBound, hx, if_pos, List.indexOf_cons, this]
        have : (x == h) = false := beq_false_of_ne hxh
        simp [this]

theorem insertIdx_lb_eq (l : List Nat) (h : Nat) :
    l.insertIdx (lowerBound l h) h = List.orderedInsert (· ≤ ·) h l := by
  induction l with
  | nil => simp [lowerBound]
  | cons x xs ih =>
    simp only [lowerBound, List.orderedInsert]
    by_cases hx : x < h
    · rw [if_pos hx, if_neg (by omega), List.insertIdx_succ_cons, ih]
    · rw [if_neg hx, if_pos (by omega)]
      simp [List.insertIdx_zero]

theorem oi_all_lt {l : List Nat} {h : Nat} (hl : ∀ x ∈ l, x < h) :
    List.orderedInsert (· ≤ ·) h l = l ++ [h] := by
  induction l with
  | nil => simp
  | cons x xs ih =>
    have hx := hl x (List.mem_cons_self x xs)
    simp only [List.orderedInsert, if_neg (by omega : ¬ h ≤ x), List.cons_append]
    rw [ih (fun y hy => hl y (List.mem_cons_of_mem x hy))]

theorem oi_append {a : List Nat} (b : List Nat) {h : Nat} (hx : ∃ x ∈ a, h ≤ x) :
    List.orderedInsert (· ≤ ·) h (a ++ b) = List.orderedInsert (· ≤ ·) h a ++ b := by
  induction a with
  | nil => simp at hx
  | cons x xs ih =>
    by_cases hxh : h ≤ x
    · simp [List.orderedInsert, hxh]
    · obtain ⟨y, hy, hhy⟩ := hx
      rcases List.mem_cons.mp hy with rfl | hy
      · omega
      · simp only [List.cons_append, List.orderedInsert, if_neg hxh]
        show x :: List.orderedInsert (· ≤ ·) h (xs ++ b) = x :: (List.orderedInsert (· ≤ ·) h xs ++ b)
        rw [ih ⟨y, hy, hhy⟩]

theorem take_oi_of_ge {l : List Nat} {h : Nat} (n : Nat) (hn : n ≤ l.length)
    (hlt : ∀ x ∈ l.take n, x < h) :
    (List.orderedInsert (· ≤ ·) h l).take n = l.take n := by
  induction l generalizing n with
  | nil =>
    have : n = 0 := by simpa using hn
    simp [this]
  | cons x xs ih =>
    cases n with
    | zero => simp
    | succ m =>
      have hx : x < h := hlt x (by simp)
      simp only [List.orderedInsert, if_neg (by omega : ¬ h ≤ x), List.take_succ_cons]
      rw [ih m (by simpa using hn) (fun y hy => hlt y (by simp [hy]))]

theorem sorted_lt_oi {l : List Nat} {h : Nat} (hs : l.Sorted (· < ·)) (hm : h ∉ l) :
    (List.orderedInsert (· ≤ ·) h l).Sorted (· < ·) := by
  induction l with
  | nil => simp
  | cons x xs ih =>
    simp only [List.orderedInsert]
    by_cases hxh : h ≤ x
    · rw [if_pos hxh]
      have hhx : h < x := lt_of_le_of_ne hxh (fun he => hm (he ▸ List.mem_cons_self x xs))
      refine List.sorted_cons.mpr ⟨?_, hs⟩
      intro b hb
      rcases List.mem_cons.mp hb with rfl | hb
      · exact hhx
      · exact lt_trans hhx ((List.sorted_cons.mp hs).1 b hb)
    · rw [if_neg hxh]
      refine List.sorted_cons.mpr ⟨?_, ih (List.sorted_cons.mp hs).2 (fun hc => hm (List.mem_cons_of_mem x hc))⟩
      intro b hb
      rcases (List.mem_orderedInsert (· ≤ ·)).mp hb with rfl | hb
      · omega
      · exact (List.sorted_cons.mp hs).1 b hb

theorem mem_le_backD {l : List Nat} (hs : l.Sorted (· < ·)) : ∀ x ∈ l, x ≤ backD l := by
  induction l with
  | nil => simp
  | cons y xs ih =>
    intro x hx
    cases xs with
    | nil =>
      simp only [List.mem_singleton] at hx
      simp [backD, hx, List.getLastD]
    | cons z zs =>
      have hrec := ih (List.sorted_cons.mp hs).2
      have hb : backD (y :: z :: zs) = backD (z :: zs) := by
        simp [backD, List.getLastD_eq_getLast? ]
      rcases List.mem_cons.mp hx with rfl | hx
      · have : x < z := (List.sorted_cons.mp hs).1 z (by simp)
        have := hrec z (by simp)
        omega
      · rw [hb]
        exact hrec x hx

theorem backD_mem {l : List Nat} (hne : l ≠ []) : backD l ∈ l := by
  induction l with
  | nil => simp at hne
  | cons y xs ih =>
    cases xs with
    | nil => simp [backD, List.getLastD]
    | cons z zs =>
      have hb : backD (y :: z :: zs) = backD (z :: zs) := by
        simp [backD, List.getLastD_eq_getLast?]
      rw [hb]
      exact List.mem_cons_of_mem y (ih (by simp))

/-! ### The semantic model: sorted duplicate-free insertion -/

/-- Sorted duplicate-free insertion: the mathematical effect of one accepted
`add_hash` on an uncapped sketch. -/
def insort (h : Nat) (l : List Nat) : List Nat :=
  if h ∈ l then l else List.orderedInsert (· ≤ ·) h l

/-- The ascending sort of the distinct values of a list. -/
def ascDistinct (l : List Nat) : List Nat :=
  l.foldl (fun acc h => insort h acc) []

/-- The accept predicate of `add_hash`:
`(max_hash and h <= max_hash) or not max_hash`. -/
def accepts (max_hash h : Nat) : Bool :=
  decide ((max_hash ≠ 0 ∧ h ≤ max_hash) ∨ max_hash = 0)

/-- Truncation to the `num` smallest entries of a sorted list, with `num = 0`
meaning no cap. -/
def bottomCap (num : Nat) (l : List Nat) : List Nat :=
  if num = 0 then l else l.take num

theorem mem_insort {h x : Nat} {l : List Nat} : x ∈ insort h l ↔ x = h ∨ x ∈ l := by
  unfold insort
  split
  · rename_i hm
    constructor
    · exact Or.inr
    · rintro (rfl | hx)
      · exact hm
      · exact hx
  · exact List.mem_orderedInsert (· ≤ ·)

theorem sorted_insort {h : Nat} {l : List Nat} (hs : l.Sorted (· < ·)) :
    (insort h l).Sorted (· < ·) := by
  unfold insort
  split
  · exact hs
  · exact sorted_lt_oi hs (by assumption)

theorem insort_comm {a b : Nat} {l : List Nat} (hs : l.Sorted (· < ·)) :
    insort a (insort b l) = insort b (insort a l) := by
  have s1 : (insort a (insort b l)).Sorted (· < ·) := sorted_insort (sorted_insort hs)
  have s2 : (insort b (insort a l)).Sorted (· < ·) := sorted_insort (sorted_insort hs)
  refine List.eq_of_perm_of_sorted ?_ (s1.imp le_of_lt) (s2.imp le_of_lt)
  refine (List.perm_ext_iff_of_nodup s1.nodup s2.nodup).mpr ?_
  intro x
  simp only [mem_insort]
  tauto

theorem foldl_insort_sorted {l : List Nat} :
    ∀ {D : List Nat}, D.Sorted (· < ·) →
      (l.foldl (fun acc h => insort h acc) D).Sorted (· < ·) := by
  induction l with
  | nil => intro D hD; exact hD
  | cons h t ih =>
    intro D hD
    exact ih (sorted_insort hD)

theorem mem_foldl_insort {l : List Nat} :
    ∀ {D : List Nat} {x : Nat},
      x ∈ l.foldl (fun acc h => insort h acc) D ↔ x ∈ D ∨ x ∈ l := by
  induction l with
  | nil => simp
  | cons h t ih =>
    intro D x
    simp only [List.foldl_cons, ih, mem_insort, List.mem_cons]
    tauto

theorem foldl_insort_perm {l1 l2 : List Nat} (hp : l1.Perm l2) :
    ∀ {D : List Nat}, D.Sorted (· < ·) →
      l1.foldl (fun acc h => insort h acc) D = l2.foldl (fun acc h => insort h acc) D := by
  induction hp with
  | nil => intro D _; rfl
  | cons x _ ih =>
    intro D hD
    simp only [List.foldl_cons]
    exact ih (sorted_insort hD)
  | swap x y =>
    intro D hD
    simp only [List.foldl_cons]
    rw [insort_comm hD]
  | trans _ _ ih1 ih2 =>
    intro D hD
    rw [ih1 hD, ih2 hD]

theorem ascDistinct_sorted (l : List Nat) : (ascDistinct l).Sorted (· < ·) :=
  foldl_insort_sorted (by simp)

theorem mem_ascDistinct {l : List Nat} {x : Nat} : x ∈ ascDistinct l ↔ x ∈ l := by
  simp [ascDistinct, mem_foldl_insort]

theorem ascDistinct_perm {l1 l2 : List Nat} (hp : l1.Perm l2) :
    ascDistinct l1 = ascDistinct l2 :=
  foldl_insort_perm hp (by simp)

theorem accepts_true_iff {M h : Nat} :
    accepts M h = true ↔ ((M ≠ 0 ∧ h ≤ M) ∨ M = 0) := by
  simp [accepts]

theorem accepts_zero (h : Nat) : accepts 0 h = true := by
  simp [accepts]

theorem filter_accepts_zero (l : List Nat) : l.filter (accepts 0) = l :=
  List.filter_eq_self.mpr (fun x _ => accepts_zero x)

/-! ### Characterisation of one `add_hash` step in each single-regime mode -/

/-- In scaled mode (`max_hash ≠ 0`, `num = 0`) an `add_hash` is exactly the
accept-filtered sorted duplicate-free insertion. -/
theorem add_hash_scaled {M : Nat} (hM : M ≠ 0) {m : List Nat} (h : Nat)
    (hs : m.Sorted (· < ·)) :
    add_hash_mins 0 M m h = if h ≤ M then insort h m else m := by
  by_cases hacc : h ≤ M
  · rw [if_pos hacc]
    unfold add_hash_mins
    rw [if_pos (Or.inl ⟨hM, hacc⟩)]
    by_cases hlen : m.length = 0
    · rw [if_pos hlen]
      have hm0 : m = [] := List.length_eq_zero.mp hlen
      subst hm0
      simp [insort]
    · rw [if_neg hlen, if_pos (Or.inl hacc)]
      by_cases hpos : lowerBound m h = m.length
      · rw [if_pos hpos]
        have hall := (lb_eq_length_iff m h).mp hpos
        have hnm : h ∉ m := fun hc => absurd (hall h hc) (lt_irrefl h)
        rw [insort, if_neg hnm, oi_all_lt hall]
      · rw [if_neg hpos]
        have hposlt : lowerBound m h < m.length := lt_of_le_of_ne (lb_le m h) hpos
        by_cases hdup : m.getD (lowerBound m h) 0 ≠ h
        · rw [if_pos hdup, if_neg (by simp)]
          have hnm : h ∉ m := fun hc => hdup (sorted_lb_getD hs hc).2
          rw [insertIdx_lb_eq, insort, if_neg hnm]
        · rw [if_neg hdup]
          have heq : m.getD (lowerBound m h) 0 = h := not_not.mp hdup
          have hm : h ∈ m := heq ▸ getD_mem m _ hposlt
          rw [insort, if_pos hm]
  · rw [if_neg hacc]
    unfold add_hash_mins
    rw [if_neg ?hrej]
    case hrej =>
      rintro (⟨_, hle⟩ | h0)
      · exact hacc hle
      · exact hM h0

/-- In bottom-`num` mode (`max_hash = 0`, `num ≠ 0`), if the retained state is
the `num` smallest of a sorted duplicate-free collection `D`, an `add_hash`
moves it to the `num` smallest of `D` with `h` inserted. -/
theorem add_hash_bottomk {n : Nat} (hn : n ≠ 0) {D : List Nat} (h : Nat)
    (hs : D.Sorted (· < ·)) :
    add_hash_mins n 0 (D.take n) h = (insort h D).take n := by
  have hsm : (D.take n).Sorted (· < ·) := hs.sublist (List.take_sublist n D)
  have hlenle : (D.take n).length ≤ n := by
    rw [List.length_take]; exact min_le_left _ _
  unfold add_hash_mins
  rw [if_pos (Or.inr rfl)]
  by_cases hlen : (D.take n).length = 0
  · rw [if_pos hlen]
    have hD : D = [] := by
      rcases List.take_eq_nil_iff.mp (List.length_eq_zero.mp hlen) with h0 | h0
      · exact absurd h0 hn
      · exact h0
    subst hD
    rw [insort, if_neg (List.not_mem_nil h), List.orderedInsert_nil,
      List.take_of_length_le (by simp; omega)]
  · rw [if_neg hlen]
    have hmne : D.take n ≠ [] := fun hc => hlen (by simp [hc])
    by_cases hg : h ≤ 0 ∨ h < backD (D.take n) ∨ (D.take n).length < n
    · rw [if_pos hg]
      by_cases hpos : lowerBound (D.take n) h = (D.take n).length
      · -- lower bound at the end: push_back, no truncation
        rw [if_pos hpos]
        have hall := (lb_eq_length_iff _ h).mp hpos
        have hlt : (D.take n).length < n := by
          rcases hg with h0 | hb | hl
          · obtain ⟨x, hx⟩ := List.exists_mem_of_ne_nil _ hmne
            have := hall x hx
            omega
          · have := hall _ (backD_mem hmne)
            omega
          · exact hl
        have hDlt : D.length < n := by
          rw [List.length_take] at hlt
          omega
        have hDeq : D.take n = D := List.take_of_length_le (le_of_lt hDlt)
        rw [hDeq] at hall ⊢
        have hnm : h ∉ D := fun hc => absurd (hall h hc) (lt_irrefl h)
        rw [insort, if_neg hnm, oi_all_lt hall, List.take_of_length_le (by simp; omega)]
      · rw [if_neg hpos]
        have hposlt : lowerBound (D.take n) h < (D.take n).length :=
          lt_of_le_of_ne (lb_le _ h) hpos
        by_cases hdup : (D.take n).getD (lowerBound (D.take n) h) 0 ≠ h
        · -- insert in the middle, possibly with pop_back
          rw [if_pos hdup]
          have hnm : h ∉ D.take n := fun hc => hdup (sorted_lb_getD hsm hc).2
          rw [insertIdx_lb_eq]
          have hoil : (List.orderedInsert (· ≤ ·) h (D.take n)).length
              = (D.take n).length + 1 := List.orderedInsert_length (· ≤ ·) (D.take n) h
          by_cases hfull : (D.take n).length = n
          · -- the sketch is full: insert then pop_back
            rw [if_pos ⟨hn, by rw [hoil]; omega⟩]
            have hnD : n ≤ D.length := by
              rw [List.length_take] at hfull
              omega
            have hgetge : h ≤ (D.take n).getD (lowerBound (D.take n) h) 0 :=
              lb_getD_ge _ h hposlt
            have hgetmem : (D.take n).getD (lowerBound (D.take n) h) 0 ∈ D.take n :=
              getD_mem _ _ hposlt
            have hnmD : h ∉ D := by
              intro hc
              have hsplit : D = D.take n ++ D.drop n := (List.take_append_drop n D).symm
              have hdropmem : h ∈ D.drop n := by
                rcases List.mem_append.mp (hsplit ▸ hc) with hm1 | hm2
                · exact absurd hm1 hnm
                · exact hm2
              have hpw := List.pairwise_append.mp (hsplit ▸ hs)
              have hbl : backD (D.take n) < h := hpw.2.2 _ (backD_mem hmne) h hdropmem
              have hble : (D.take n).getD (lowerBound (D.take n) h) 0 ≤ backD (D.take n) :=
                mem_le_backD hsm _ hgetmem
              omega
            rw [insort, if_neg hnmD]
            conv_rhs => rw [← List.take_append_drop n D]
            rw [oi_append (D.drop n) ⟨_, hgetmem, hgetge⟩,
              List.take_append_of_le_length (by rw [hoil, hfull]; omega),
              List.dropLast_eq_take, hoil, hfull]
            simp
          · -- still room: insert without pop_back
            have hltn : (D.take n).length < n := lt_of_le_of_ne hlenle hfull
            rw [if_neg (by rw [hoil]; omega)]
            have hDlt : D.length < n := by
              rw [List.length_take] at hltn
              omega
            have hDeq : D.take n = D := List.take_of_length_le (le_of_lt hDlt)
            rw [hDeq] at hnm ⊢
            rw [insort, if_neg hnm,
              List.take_of_length_le (by rw [List.orderedInsert_length (· ≤ ·) D h]; omega)]
        · -- the hash is already present: no-op
          rw [if_neg hdup]
          have heq : (D.take n).getD (lowerBound (D.take n) h) 0 = h := not_not.mp hdup
          have hm : h ∈ D.take n := heq ▸ getD_mem _ _ hposlt
          have hmD : h ∈ D := List.mem_of_mem_take hm
          rw [insort, if_pos hmD]
    · -- full sketch and h at least the current maximum: no-op
      rw [if_neg hg]
      push_neg at hg
      obtain ⟨h0, hback, hlen2⟩ := hg
      have hfull : (D.take n).length = n := le_antisymm hlenle hlen2
      have hnD : n ≤ D.length := by
        rw [List.length_take] at hfull
        omega
      by_cases hmD : h ∈ D
      · rw [insort, if_pos hmD]
      · rw [insort, if_neg hmD, take_oi_of_ge n hnD]
        intro x hx
        have hxle : x ≤ backD (D.take n) := mem_le_backD hsm x hx
        have hxD : x ∈ D := List.mem_of_mem_take hx
        have hxh : x ≠ h := fun he => hmD (he ▸ hxD)
        omega

/-! ### Characterisation of `add_hash` folds -/

/-- Scaled mode, folded: any sequence of `add_hash` calls acts as the fold of
accept-filtered sorted duplicate-free insertions. -/
theorem add_many_scaled {M : Nat} (hM : M ≠ 0) (l : List Nat) :
    ∀ {m : List Nat}, m.Sorted (· < ·) →
      add_many_mins 0 M m l
        = (l.filter (accepts M)).foldl (fun acc h => insort h acc) m := by
  induction l with
  | nil => intro m _; rfl
  | cons h t ih =>
    intro m hs
    show add_many_mins 0 M (add_hash_mins 0 M m h) t = _
    rw [add_hash_scaled hM h hs]
    by_cases hacc : h ≤ M
    · rw [if_pos hacc]
      have : accepts M h = true := accepts_true_iff.mpr (Or.inl ⟨hM, hacc⟩)
      rw [List.filter_cons_of_pos this, List.foldl_cons]
      exact ih (sorted_insort hs)
    · rw [if_neg hacc]
      have : ¬ (accepts M h = true) := by
        rw [accepts_true_iff]
        rintro (⟨_, hle⟩ | h0)
        · exact hacc hle
        · exact hM h0
      rw [List.filter_cons_of_neg (by simpa using this)]
      exact ih hs

/-- Bottom-`num` mode, folded: any sequence of `add_hash` calls keeps the
state equal to the `num` smallest of the sorted distinct values seen. -/
theorem add_many_bottomk {n : Nat} (hn : n ≠ 0) (l : List Nat) :
    ∀ {D : List Nat}, D.Sorted (· < ·) →
      add_many_mins n 0 (D.take n) l
        = (l.foldl (fun acc h => insort h acc) D).take n := by
  induction l with
  | nil => intro D _; rfl
  | cons h t ih =>
    intro D hs
    show add_many_mins n 0 (add_hash_mins n 0 (D.take n) h) t = _
    rw [add_hash_bottomk hn h hs, List.foldl_cons]
    exact ih (sorted_insort hs)

theorem add_many_eq (s : KmerMinHash) (l : List Nat) :
    s.add_many l = { s with mins := add_many_mins s.num s.max_hash s.mins l } := by
  induction l generalizing s with
  | nil => rfl
  | cons h t ih =>
    show (s.add_hash h).add_many t = _
    rw [ih]
    rfl

/-- **C1, amended.**  For every sketch configuration in which exactly one of
`num` and `max_hash` is nonzero, and every finite sequence of `add_hash`
calls starting from an empty sketch, the post-state `mins` equals the
ascending sort of the distinct accepted hashes (those satisfying the accept
predicate), truncated to the `num` smallest when `num > 0`; in particular
the result is independent of the order of the calls.  (As stated over all
configurations the claim fails: see the counterexample, which exercises the
legal configuration `num = max_hash = 0`.) -/
theorem C1_add_many_characterisation (s : KmerMinHash) (l : List Nat)
    (hempty : s.mins = [])
    (hreg : (s.num = 0 ∧ s.max_hash ≠ 0) ∨ (s.num ≠ 0 ∧ s.max_hash = 0)) :
    (s.add_many l).mins = bottomCap s.num (ascDistinct (l.filter (accepts s.max_hash)))
    ∧ ∀ l2 : List Nat, l.Perm l2 → s.add_many l = s.add_many l2 := by
  have key : ∀ t : List Nat,
      add_many_mins s.num s.max_hash s.mins t
        = bottomCap s.num (ascDistinct (t.filter (accepts s.max_hash))) := by
    intro t
    rcases hreg with ⟨hn0, hM⟩ | ⟨hn, hM0⟩
    · rw [hempty, hn0, bottomCap, if_pos rfl]
      rw [add_many_scaled hM t (by simp)]
      rfl
    · rw [hempty, hM0, bottomCap, if_neg hn, filter_accepts_zero]
      have htake : ([] : List Nat) = ([] : List Nat).take s.num := by simp
      rw [htake, add_many_bottomk hn t (by simp)]
      rfl
  constructor
  · rw [add_many_eq]
    exact key l
  · intro l2 hp
    rw [add_many_eq, add_many_eq, key l, key l2,
      ascDistinct_perm (hp.filter (accepts s.max_hash))]

/-- **C1, counterexample to the claim as stated.**  In the legal
configuration `num = max_hash = 0` (no cap, unconditional accept) the code
retains `[1]` after the calls `add_hash 1; add_hash 2` although the ascending
sort of the distinct accepted hashes is `[1, 2]`, and the reversed call order
produces a different state. -/
theorem C1_counterexample :
    (KmerMinHash.add_many ⟨0, 21, false, false, 42, 0, []⟩ [1, 2]).mins = [1]
    ∧ bottomCap 0 (ascDistinct (List.filter (accepts 0) [1, 2])) = [1, 2]
    ∧ KmerMinHash.add_many ⟨0, 21, false, false, 42, 0, []⟩ [1, 2]
        ≠ KmerMinHash.add_many ⟨0, 21, false, false, 42, 0, []⟩ [2, 1] := by
  refine ⟨?_, ?_, ?_⟩ <;> decide

theorem C1_witness :
    ((⟨0, 21, false, false, 42, 1000, []⟩ : KmerMinHash).mins = []
      ∧ (((⟨0, 21, false, false, 42, 1000, []⟩ : KmerMinHash).num = 0
            ∧ (⟨0, 21, false, false, 42, 1000, []⟩ : KmerMinHash).max_hash ≠ 0)
          ∨ ((⟨0, 21, false, false, 42, 1000, []⟩ : KmerMinHash).num ≠ 0
            ∧ (⟨0, 21, false, false, 42, 1000, []⟩ : KmerMinHash).max_hash = 0)))
    ∧ ((KmerMinHash.add_many ⟨0, 21, false, false, 42, 1000, []⟩ [7, 3, 7, 2000]).mins
          = bottomCap 0 (ascDistinct (List.filter (accepts 1000) [7, 3, 7, 2000]))
        ∧ ∀ l2 : List Nat, List.Perm [7, 3, 7, 2000] l2 →
            KmerMinHash.add_many ⟨0, 21, false, false, 42, 1000, []⟩ [7, 3, 7, 2000]
              = KmerMinHash.add_many ⟨0, 21, false, false, 42, 1000, []⟩ l2) :=
  ⟨⟨by decide, by decide⟩,
    C1_add_many_characterisation ⟨0, 21, false, false, 42, 1000, []⟩ [7, 3, 7, 2000]
      (by decide) (by decide)⟩

/-! ### Idempotence and abundance counting of `add_hash` -/

theorem insertIdx_take_drop (a : Nat) :
    ∀ (l : List Nat) (n : Nat), n ≤ l.length →
      l.insertIdx n a = l.take n ++ a :: l.drop n := by
  intro l
  induction l with
  | nil =>
    intro n hn
    have : n = 0 := by simpa using hn
    simp [this]
  | cons x xs ih =>
    intro n hn
    cases n with
    | zero => simp [List.insertIdx_zero]
    | succ k =>
      rw [List.insertIdx_succ_cons, ih k (by simpa using hn)]
      simp

theorem oi_take_drop (l : List Nat) (h : Nat) :
    List.orderedInsert (· ≤ ·) h l
      = l.take (lowerBound l h) ++ h :: l.drop (lowerBound l h) := by
  rw [← insertIdx_lb_eq, insertIdx_take_drop h l _ (lb_le l h)]

theorem indexOf_append_not_mem {h : Nat} {l1 : List Nat} (l2 : List Nat) (hm : h ∉ l1) :
    (l1 ++ l2).indexOf h = l1.length + l2.indexOf h := by
  induction l1 with
  | nil => simp
  | cons x xs ih =>
    have hx : ¬ (x == h) = true := by
      simp only [beq_iff_eq]
      intro hc
      exact hm (hc ▸ List.mem_cons_self x xs)
    simp only [List.cons_append, List.indexOf_cons, List.length_cons]
    rw [ih (fun hc => hm (List.mem_cons_of_mem x hc))]
    simp [hx]
    omega

/-- If a hash is already retained, the unweighted `add_hash` is a no-op. -/
theorem add_hash_mem_noop {n M : Nat} {m : List Nat} {h : Nat}
    (hs : m.Sorted (· < ·)) (hm : h ∈ m) : add_hash_mins n M m h = m := by
  obtain ⟨hp1, hp2⟩ := sorted_lb_getD hs hm
  have hlen : ¬ m.length = 0 := by
    intro h0
    rw [List.length_eq_zero.mp h0] at hm
    simp at hm
  unfold add_hash_mins
  by_cases c1 : (M ≠ 0 ∧ h ≤ M) ∨ M = 0
  · rw [if_pos c1, if_neg hlen]
    by_cases c3 : h ≤ M ∨ h < backD m ∨ m.length < n
    · rw [if_pos c3, if_neg (show ¬ lowerBound m h = m.length by omega),
        if_neg (not_not_intro hp2)]
    · rw [if_neg c3]
  · rw [if_neg c1]

/-- The unweighted `add_hash` either leaves the state unchanged or produces a
sorted state containing `h`. -/
theorem add_hash_sorted_or {n M : Nat} {m : List Nat} (h : Nat) (hs : m.Sorted (· < ·)) :
    add_hash_mins n M m h = m
    ∨ (h ∈ add_hash_mins n M m h ∧ (add_hash_mins n M m h).Sorted (· < ·)) := by
  unfold add_hash_mins
  by_cases c1 : (M ≠ 0 ∧ h ≤ M) ∨ M = 0
  · rw [if_pos c1]
    by_cases c2 : m.length = 0
    · rw [if_pos c2]
      exact Or.inr ⟨by simp, by simp⟩
    · rw [if_neg c2]
      by_cases c3 : h ≤ M ∨ h < backD m ∨ m.length < n
      · rw [if_pos c3]
        by_cases c4 : lowerBound m h = m.length
        · rw [if_pos c4]
          have hall := (lb_eq_length_iff m h).mp c4
          have hnm : h ∉ m := fun hc => absurd (hall h hc) (lt_irrefl h)
          rw [← oi_all_lt hall]
          exact Or.inr ⟨(List.mem_orderedInsert (· ≤ ·)).mpr (Or.inl rfl),
            sorted_lt_oi hs hnm⟩
        · rw [if_neg c4]
          by_cases c5 : m.getD (lowerBound m h) 0 ≠ h
          · rw [if_pos c5]
            have hnm : h ∉ m := fun hc => c5 (sorted_lb_getD hs hc).2
            have hposlt : lowerBound m h < m.length := lt_of_le_of_ne (lb_le m h) c4
            rw [insertIdx_lb_eq]
            by_cases c6 : n ≠ 0 ∧ n < (List.orderedInsert (· ≤ ·) h m).length
            · rw [if_pos c6]
              refine Or.inr ⟨?_, ((sorted_lt_oi hs hnm).sublist (List.dropLast_sublist _) :)⟩
              rw [oi_take_drop]
              obtain ⟨d, ds, hds⟩ : ∃ d ds, m.drop (lowerBound m h) = d :: ds := by
                cases hdrop : m.drop (lowerBound m h) with
                | nil =>
                  have := List.length_drop (lowerBound m h) m
                  rw [hdrop] at this
                  simp at this
                  omega
                | cons d ds => exact ⟨d, ds, rfl⟩
              rw [hds, List.dropLast_append_of_ne_nil _ (by simp)]
              simp
            · rw [if_neg c6]
              exact Or.inr ⟨(List.mem_orderedInsert (· ≤ ·)).mpr (Or.inl rfl),
                sorted_lt_oi hs hnm⟩
          · rw [if_neg c5]
            exact Or.inl rfl
      · rw [if_neg c3]
        exact Or.inl rfl
  · rw [if_neg c1]
    exact Or.inl rfl

theorem getD_set_self : ∀ (l : List Nat) (i v : Nat), i < l.length →
    (l.set i v).getD i 0 = v := by
  intro l
  induction l with
  | nil => intro i v hi; simp at hi
  | cons x xs ih =>
    intro i v hi
    cases i with
    | zero => simp
    | succ k =>
      simp only [List.set_cons_succ, List.getD_cons_succ]
      exact ih k v (by simpa using hi)

/-- One weighted `add_hash` of an accepted hash on a scaled sketch
(`max_hash ≠ 0`): the state stays sorted and parallel, retains `h`, and the
abundance recorded for `h` grows by exactly one. -/
theorem add_hash_ma_increment {n M : Nat} (hM : M ≠ 0) {mins abunds : List Nat} {h : Nat}
    (hacc : h ≤ M) (hs : mins.Sorted (· < ·)) (hlen : mins.length = abunds.length) :
    (add_hash_ma n M mins abunds h).1.Sorted (· < ·)
    ∧ (add_hash_ma n M mins abunds h).1.length = (add_hash_ma n M mins abunds h).2.length
    ∧ h ∈ (add_hash_ma n M mins abunds h).1
    ∧ abundanceOf (add_hash_ma n M mins abunds h).1 (add_hash_ma n M mins abunds h).2 h
        = abundanceOf mins abunds h + 1 := by
  unfold add_hash_ma
  rw [if_pos (Or.inl ⟨hM, hacc⟩)]
  by_cases c2 : mins.length = 0
  · rw [if_pos c2]
    have hm0 : mins = [] := List.length_eq_zero.mp c2
    subst hm0
    refine ⟨by simp, by simp, by simp, ?_⟩
    simp [abundanceOf]
  · rw [if_neg c2, if_pos (Or.inl hacc)]
    by_cases c4 : lowerBound mins h = mins.length
    · -- push_back at the end
      rw [if_pos c4]
      have hall := (lb_eq_length_iff mins h).mp c4
      have hnm : h ∉ mins := fun hc => absurd (hall h hc) (lt_irrefl h)
      refine ⟨by rw [← oi_all_lt hall]; exact sorted_lt_oi hs hnm, by simp [hlen], by simp, ?_⟩
      rw [abundanceOf, abundanceOf, if_neg hnm, if_pos (by simp)]
      rw [indexOf_append_not_mem [h] hnm]
      rw [List.getD_append_right abunds [1] 0 _ (by omega)]
      simp [hlen]
    · rw [if_neg c4]
      have hposlt : lowerBound mins h < mins.length := lt_of_le_of_ne (lb_le mins h) c4
      by_cases c5 : mins.getD (lowerBound mins h) 0 ≠ h
      · -- insert in the middle; `max_hash ≠ 0` disables the pop_back
        rw [if_pos c5, if_neg (by rintro ⟨-, hc⟩; exact hM hc)]
        have hnm : h ∉ mins := fun hc => c5 (sorted_lb_getD hs hc).2
        have htd := insertIdx_take_drop h mins (lowerBound mins h) (le_of_lt hposlt)
        have htd2 := insertIdx_take_drop 1 abunds (lowerBound mins h)
          (by rw [← hlen]; exact le_of_lt hposlt)
        refine ⟨by rw [insertIdx_lb_eq]; exact sorted_lt_oi hs hnm, ?_, ?_, ?_⟩
        · rw [List.length_insertIdx _ _ (le_of_lt hposlt),
            List.length_insertIdx _ _ (by rw [← hlen]; exact le_of_lt hposlt), hlen]
        · rw [insertIdx_lb_eq]
          exact (List.mem_orderedInsert (· ≤ ·)).mpr (Or.inl rfl)
        · have hmem : h ∈ mins.insertIdx (lowerBound mins h) h := by
            rw [insertIdx_lb_eq]
            exact (List.mem_orderedInsert (· ≤ ·)).mpr (Or.inl rfl)
          rw [abundanceOf, abundanceOf, if_neg hnm, if_pos hmem, htd, htd2]
          have hnt : h ∉ mins.take (lowerBound mins h) :=
            fun hc => hnm (List.mem_of_mem_take hc)
          rw [indexOf_append_not_mem _ hnt]
          have hlt : (mins.take (lowerBound mins h)).length = lowerBound mins h := by
            rw [List.length_take]
            omega
          have hlt2 : (abunds.take (lowerBound mins h)).length = lowerBound mins h := by
            rw [List.length_take]
            omega
          rw [List.getD_append_right _ _ 0 _ (by rw [hlt2, hlt]; simp)]
          simp [hlt, hlt2]
      · -- the hash is present: increment its abundance
        rw [if_neg c5]
        have heq : mins.getD (lowerBound mins h) 0 = h := not_not.mp c5
        have hmem : h ∈ mins := heq ▸ getD_mem mins _ hposlt
        have hidx : lowerBound mins h = mins.indexOf h := sorted_lb_indexOf hs hmem
        have hlbab : lowerBound mins h < abunds.length := by omega
        refine ⟨hs, by simp [hlen], hmem, ?_⟩
        rw [abundanceOf, abundanceOf, if_pos hmem, if_pos hmem, ← hidx]
        show (abunds.set (lowerBound mins h)
            (abunds.getD (lowerBound mins h) 0 + 1)).getD (lowerBound mins h) 0 = _
        rw [getD_set_self abunds _ _ hlbab]

theorem add_hash_ma_iterate (h k : Nat) :
    ∀ (s : KmerMinAbundance), s.max_hash ≠ 0 → h ≤ s.max_hash →
      s.mins.Sorted (· < ·) → s.mins.length = s.abunds.length →
      ((fun st : KmerMinAbundance => st.add_hash h)^[k] s).max_hash = s.max_hash
      ∧ ((fun st : KmerMinAbundance => st.add_hash h)^[k] s).mins.Sorted (· < ·)
      ∧ ((fun st : KmerMinAbundance => st.add_hash h)^[k] s).mins.length
          = ((fun st : KmerMinAbundance => st.add_hash h)^[k] s).abunds.length
      ∧ abundanceOf ((fun st : KmerMinAbundance => st.add_hash h)^[k] s).mins
            ((fun st : KmerMinAbundance => st.add_hash h)^[k] s).abunds h
          = abundanceOf s.mins s.abunds h + k
      ∧ (1 ≤ k → h ∈ ((fun st : KmerMinAbundance => st.add_hash h)^[k] s).mins) := by
  induction k with
  | zero =>
    intro s _ _ hs hlen
    refine ⟨rfl, hs, hlen, by simp, ?_⟩
    intro hc
    omega
  | succ k ih =>
    intro s hM hacc hs hlen
    obtain ⟨hmax, hsort, hlen2, habund, -⟩ := ih s hM hacc hs hlen
    rw [Function.iterate_succ_apply']
    have hMt : ((fun st : KmerMinAbundance => st.add_hash h)^[k] s).max_hash ≠ 0 := by
      rw [hmax]; exact hM
    have hacct : h ≤ ((fun st : KmerMinAbundance => st.add_hash h)^[k] s).max_hash := by
      rw [hmax]; exact hacc
    obtain ⟨hs2, hl2, hm2, hab2⟩ :=
      add_hash_ma_increment hMt hacct hsort hlen2
        (n := ((fun st : KmerMinAbundance => st.add_hash h)^[k] s).num)
    refine ⟨hmax, hs2, hl2, ?_, fun _ => hm2⟩
    show abundanceOf (add_hash_ma _ _ _ _ h).1 (add_hash_ma _ _ _ _ h).2 h = _
    rw [hab2, habund]
    omega

/-- **C4, amended.**  On an unweighted sketch with sorted `mins` (an
invariant of every reachable state) `add_hash` is idempotent under any
configuration.  On a weighted sketch the claimed abundance count holds in
scaled mode: when `max_hash ≠ 0` and `h ≤ max_hash`, `k` applications of
`add_hash h` starting from a valid state not containing `h` retain `h` with
abundance exactly `k`.  (As stated the weighted half fails when
`max_hash = 0`: a full bottom-`num` sketch refuses to increment the
abundance of its largest retained hash — see the counterexample.) -/
theorem C4_idempotent_and_weighted_count :
    (∀ (s : KmerMinHash) (h : Nat), s.mins.Sorted (· < ·) →
        (s.add_hash h).add_hash h = s.add_hash h)
    ∧ (∀ (s : KmerMinAbundance) (h k : Nat), s.max_hash ≠ 0 → h ≤ s.max_hash →
        s.mins.Sorted (· < ·) → s.mins.length = s.abunds.length → h ∉ s.mins → 1 ≤ k →
        h ∈ ((fun st : KmerMinAbundance => st.add_hash h)^[k] s).mins
        ∧ abundanceOf ((fun st : KmerMinAbundance => st.add_hash h)^[k] s).mins
            ((fun st : KmerMinAbundance => st.add_hash h)^[k] s).abunds h = k) := by
  constructor
  · intro s h hs
    rcases add_hash_sorted_or (n := s.num) (M := s.max_hash) h hs with heq | ⟨hmem, hsort⟩
    · have h1 : s.add_hash h = s := by
        show { s with mins := add_hash_mins s.num s.max_hash s.mins h } = s
        rw [heq]
      simp only [h1]
    · show { s.add_hash h with
          mins := add_hash_mins s.num s.max_hash
            (add_hash_mins s.num s.max_hash s.mins h) h } = s.add_hash h
      rw [add_hash_mem_noop hsort hmem]
      rfl
  · intro s h k hM hacc hs hlen hnm hk
    obtain ⟨-, -, -, habund, hmem⟩ := add_hash_ma_iterate h k s hM hacc hs hlen
    refine ⟨hmem hk, ?_⟩
    rw [habund, abundanceOf, if_neg hnm]
    omega

/-- The weighted sketch of the C4 counterexample: `num = 1`, `max_hash = 0`. -/
def c4bad : KmerMinAbundance := ⟨1, 21, false, false, 42, 0, [], []⟩

/-- **C4, counterexample to the claim as stated.**  On the weighted sketch
with `num = 1`, `max_hash = 0`, two applications of `add_hash 5` retain the
hash 5 but record abundance 1, not 2: the guard
`h <= max_hash or mins.back() > h or mins.size() < num` is false on the
second call, so the increment branch is never reached. -/
theorem C4_counterexample :
    ((fun st : KmerMinAbundance => st.add_hash 5)^[2] c4bad).mins = [5]
    ∧ ((fun st : KmerMinAbundance => st.add_hash 5)^[2] c4bad).abunds = [1]
    ∧ abundanceOf ((fun st : KmerMinAbundance => st.add_hash 5)^[2] c4bad).mins
        ((fun st : KmerMinAbundance => st.add_hash 5)^[2] c4bad).abunds 5 ≠ 2 := by
  refine ⟨?_, ?_, ?_⟩ <;> decide

/-- A concrete weighted sketch used by the C4 witness. -/
def c4wa : KmerMinAbundance := ⟨7, 21, false, false, 42, 9, [], []⟩

/-- A concrete unweighted sketch used by the C4 witness. -/
def c4wu : KmerMinHash := ⟨3, 0, false, false, 0, 0, [4, 9]⟩

theorem C4_witness :
    (c4wa.max_hash ≠ 0
      ∧ (5 : Nat) ≤ c4wa.max_hash
      ∧ c4wa.mins.Sorted (· < ·)
      ∧ (5 : Nat) ∉ c4wa.mins
      ∧ c4wu.mins.Sorted (· < ·))
    ∧ (c4wu.add_hash 6).add_hash 6 = c4wu.add_hash 6
    ∧ (5 ∈ ((fun st : KmerMinAbundance => st.add_hash 5)^[3] c4wa).mins
        ∧ abundanceOf ((fun st : KmerMinAbundance => st.add_hash 5)^[3] c4wa).mins
            ((fun st : KmerMinAbundance => st.add_hash 5)^[3] c4wa).abunds 5 = 3) :=
  ⟨⟨by decide, by decide, by simp [c4wa], by decide, by simp [c4wu, List.sorted_cons]⟩,
    C4_idempotent_and_weighted_count.1 c4wu 6 (by simp [c4wu, List.sorted_cons]),
    C4_idempotent_and_weighted_count.2 c4wa 5 3
      (by decide) (by decide) (by simp [c4wa]) (by decide) (by decide) (by decide)⟩

/-! ### Compatibility, rejection and the `max_hash` invariant -/

/-- The mismatch condition actually tested by `check_compatible`: `ksize`,
`moltype` (`is_protein` and `dayhoff`), `seed` and `max_hash`.  `num` is not
compared. -/
def mismatch (a b : KmerMinHash) : Prop :=
  a.ksize ≠ b.ksize ∨ a.is_protein ≠ b.is_protein ∨ a.dayhoff ≠ b.dayhoff
    ∨ a.seed ≠ b.seed ∨ a.max_hash ≠ b.max_hash

/-- The same mismatch condition on weighted sketches. -/
def mismatch_ma (a b : KmerMinAbundance) : Prop :=
  a.ksize ≠ b.ksize ∨ a.is_protein ≠ b.is_protein ∨ a.dayhoff ≠ b.dayhoff
    ∨ a.seed ≠ b.seed ∨ a.max_hash ≠ b.max_hash

theorem check_compatible_error_iff (a b : KmerMinHash) :
    (∃ e, check_compatible a b = .error e) ↔ mismatch a b := by
  unfold check_compatible mismatch
  split_ifs <;> simp_all

theorem check_compatible_ok (a b : KmerMinHash) (hok : ¬ mismatch a b) :
    check_compatible a b = .ok () := by
  unfold check_compatible
  unfold mismatch at hok
  split_ifs <;> simp_all

theorem check_compatible_ma_error_iff (a b : KmerMinAbundance) :
    (∃ e, check_compatible_ma a b = .error e) ↔ mismatch_ma a b := by
  unfold check_compatible_ma mismatch_ma
  split_ifs <;> simp_all

theorem set_union_mem {l1 l2 : List Nat} {x : Nat} (hx : x ∈ set_union l1 l2) :
    x ∈ l1 ∨ x ∈ l2 := by
  induction l1, l2 using set_union.induct with
  | case1 l2 =>
    rw [set_union] at hx
    exact Or.inr hx
  | case2 l1 h =>
    rw [set_union] at hx
    · exact Or.inl hx
    · exact h
  | case3 a l1 b l2 hab ih =>
    rw [set_union, if_pos hab] at hx
    rcases List.mem_cons.mp hx with rfl | hx2
    · exact Or.inl (by simp)
    · rcases ih hx2 with h1 | h2
      · exact Or.inl (List.mem_cons_of_mem _ h1)
      · exact Or.inr h2
  | case4 a l1 b l2 hab hba ih =>
    rw [set_union, if_neg hab, if_pos hba] at hx
    rcases List.mem_cons.mp hx with rfl | hx2
    · exact Or.inr (by simp)
    · rcases ih hx2 with h1 | h2
      · exact Or.inl h1
      · exact Or.inr (List.mem_cons_of_mem _ h2)
  | case5 a l1 b l2 hab hba ih =>
    rw [set_union, if_neg hab, if_neg hba] at hx
    rcases List.mem_cons.mp hx with rfl | hx2
    · exact Or.inl (by simp)
    · rcases ih hx2 with h1 | h2
      · exact Or.inl (List.mem_cons_of_mem _ h1)
      · exact Or.inr (List.mem_cons_of_mem _ h2)

theorem merge_loop_mem {m1 a1 m2 a2 : List Nat} {x : Nat}
    (hx : x ∈ (merge_loop m1 a1 m2 a2).1) : x ∈ m1 ∨ x ∈ m2 := by
  induction m1, a1, m2, a2 using merge_loop.induct with
  | case1 a1 m2 a2 =>
    rw [merge_loop] at hx
    exact Or.inr hx
  | case2 x1 m1 a1 a2 =>
    rw [merge_loop] at hx
    exact Or.inl hx
  | case3 x1 m1 a1 y m2 a2 hyx ih =>
    rw [merge_loop, if_pos hyx] at hx
    rcases List.mem_cons.mp hx with rfl | hx2
    · exact Or.inr (by simp)
    · rcases ih hx2 with h1 | h2
      · exact Or.inl h1
      · exact Or.inr (List.mem_cons_of_mem _ h2)
  | case4 m1 a1 y m2 a2 hyy ih =>
    rw [merge_loop, if_neg hyy, if_pos rfl] at hx
    rcases List.mem_cons.mp hx with rfl | hx2
    · exact Or.inl (by simp)
    · rcases ih hx2 with h1 | h2
      · exact Or.inl (List.mem_cons_of_mem _ h1)
      · exact Or.inr (List.mem_cons_of_mem _ h2)
  | case5 x1 m1 a1 y m2 a2 hyx heq ih =>
    rw [merge_loop, if_neg hyx, if_neg heq] at hx
    rcases List.mem_cons.mp hx with rfl | hx2
    · exact Or.inl (by simp)
    · rcases ih hx2 with h1 | h2
      · exact Or.inl (List.mem_cons_of_mem _ h1)
      · exact Or.inr h2

/-- Every element of the post-`add_hash` `mins` is an old element or the
added hash itself. -/
theorem add_hash_mins_subset {n M : Nat} {m : List Nat} {h x : Nat}
    (hx : x ∈ add_hash_mins n M m h) : x ∈ m ∨ x = h := by
  unfold add_hash_mins at hx
  by_cases c1 : (M ≠ 0 ∧ h ≤ M) ∨ M = 0
  · rw [if_pos c1] at hx
    by_cases c2 : m.length = 0
    · rw [if_pos c2] at hx
      simp at hx
      exact Or.inr hx
    · rw [if_neg c2] at hx
      by_cases c3 : h ≤ M ∨ h < backD m ∨ m.length < n
      · rw [if_pos c3] at hx
        by_cases c4 : lowerBound m h = m.length
        · rw [if_pos c4] at hx
          rcases List.mem_append.mp hx with h1 | h1
          · exact Or.inl h1
          · simp at h1
            exact Or.inr h1
        · rw [if_neg c4] at hx
          by_cases c5 : m.getD (lowerBound m h) 0 ≠ h
          · rw [if_pos c5] at hx
            have hins : x ∈ m.insertIdx (lowerBound m h) h := by
              by_cases c6 : n ≠ 0 ∧ n < (m.insertIdx (lowerBound m h) h).length
              · rw [if_pos c6] at hx
                exact (List.dropLast_sublist _).mem hx
              · rw [if_neg c6] at hx
                exact hx
            rw [insertIdx_take_drop h m _ (lb_le m h)] at hins
            rcases List.mem_append.mp hins with h1 | h1
            · exact Or.inl (List.mem_of_mem_take h1)
            · rcases List.mem_cons.mp h1 with rfl | h1
              · exact Or.inr rfl
              · exact Or.inl ((List.drop_sublist _ _).mem h1)
          · rw [if_neg c5] at hx
            exact Or.inl hx
      · rw [if_neg c3] at hx
        exact Or.inl hx
  · rw [if_neg c1] at hx
    exact Or.inl hx

/-- Weighted analogue of `add_hash_mins_subset`. -/
theorem add_hash_ma_subset {n M : Nat} {mins abunds : List Nat} {h x : Nat}
    (hx : x ∈ (add_hash_ma n M mins abunds h).1) : x ∈ mins ∨ x = h := by
  unfold add_hash_ma at hx
  by_cases c1 : (M ≠ 0 ∧ h ≤ M) ∨ M = 0
  · rw [if_pos c1] at hx
    by_cases c2 : mins.length = 0
    · rw [if_pos c2] at hx
      simp at hx
      exact Or.inr hx
    · rw [if_neg c2] at hx
      by_cases c3 : h ≤ M ∨ h < backD mins ∨ mins.length < n
      · rw [if_pos c3] at hx
        by_cases c4 : lowerBound mins h = mins.length
        · rw [if_pos c4] at hx
          rcases List.mem_append.mp hx with h1 | h1
          · exact Or.inl h1
          · simp at h1
            exact Or.inr h1
        · rw [if_neg c4] at hx
          by_cases c5 : mins.getD (lowerBound mins h) 0 ≠ h
          · rw [if_pos c5] at hx
            have hins : x ∈ mins.insertIdx (lowerBound mins h) h := by
              by_cases c6 : n < (mins.insertIdx (lowerBound mins h) h).length ∧ M = 0
              · rw [if_pos c6] at hx
                exact (List.dropLast_sublist _).mem hx
              · rw [if_neg c6] at hx
                exact hx
            rw [insertIdx_take_drop h mins _ (lb_le mins h)] at hins
            rcases List.mem_append.mp hins with h1 | h1
            · exact Or.inl (List.mem_of_mem_take h1)
            · rcases List.mem_cons.mp h1 with rfl | h1
              · exact Or.inr rfl
              · exact Or.inl ((List.drop_sublist _ _).mem h1)
          · rw [if_neg c5] at hx
            exact Or.inl hx
      · rw [if_neg c3] at hx
        exact Or.inl hx
  · rw [if_neg c1] at hx
    exact Or.inl hx

theorem add_hash_reject {s : KmerMinHash} {h : Nat} (hM : s.max_hash ≠ 0)
    (hgt : s.max_hash < h) : s.add_hash h = s := by
  have hc : ¬ ((s.max_hash ≠ 0 ∧ h ≤ s.max_hash) ∨ s.max_hash = 0) := by
    rintro (⟨-, hle⟩ | h0)
    · omega
    · exact hM h0
  show { s with mins := add_hash_mins s.num s.max_hash s.mins h } = s
  rw [add_hash_mins, if_neg hc]

theorem add_hash_ma_reject {s : KmerMinAbundance} {h : Nat} (hM : s.max_hash ≠ 0)
    (hgt : s.max_hash < h) : s.add_hash h = s := by
  have hc : ¬ ((s.max_hash ≠ 0 ∧ h ≤ s.max_hash) ∨ s.max_hash = 0) := by
    rintro (⟨-, hle⟩ | h0)
    · omega
    · exact hM h0
  show { s with mins := (add_hash_ma s.num s.max_hash s.mins s.abunds h).1,
                abunds := (add_hash_ma s.num s.max_hash s.mins s.abunds h).2 } = s
  rw [add_hash_ma, if_neg hc]

theorem merge_ok_inv {a b c : KmerMinHash} (h : a.merge b = .ok c) :
    c.max_hash = a.max_hash ∧ ∀ x ∈ c.mins, x ∈ a.mins ∨ x ∈ b.mins := by
  unfold KmerMinHash.merge at h
  split at h
  · simp at h
  · split at h
    · simp only [Except.ok.injEq] at h
      subst h
      refine ⟨rfl, ?_⟩
      intro x hx
      rcases set_union_mem hx with h1 | h1
      · exact Or.inr h1
      · exact Or.inl h1
    · simp only [Except.ok.injEq] at h
      subst h
      refine ⟨rfl, ?_⟩
      intro x hx
      rcases set_union_mem (List.mem_of_mem_take hx) with h1 | h1
      · exact Or.inr h1
      · exact Or.inl h1

theorem merge_ma_ok_inv {a b c : KmerMinAbundance} (h : a.merge b = .ok c) :
    c.max_hash = a.max_hash ∧ ∀ x ∈ c.mins, x ∈ a.mins ∨ x ∈ b.mins := by
  unfold KmerMinAbundance.merge at h
  split at h
  · simp at h
  · split at h
    · simp only [Except.ok.injEq] at h
      subst h
      exact ⟨rfl, fun x hx => merge_loop_mem hx⟩
    · simp only [Except.ok.injEq] at h
      subst h
      exact ⟨rfl, fun x hx => merge_loop_mem (List.mem_of_mem_take hx)⟩

/-- `check_compatible` succeeding forces equal `max_hash` fields. -/
theorem merge_ok_same_max_hash {a b c : KmerMinHash} (h : a.merge b = .ok c) :
    a.max_hash = b.max_hash := by
  by_contra hne
  obtain ⟨e, he⟩ := (check_compatible_error_iff a b).mpr
    (Or.inr (Or.inr (Or.inr (Or.inr hne))))
  unfold KmerMinHash.merge at h
  rw [he] at h
  simp at h

theorem merge_ma_ok_same_max_hash {a b c : KmerMinAbundance} (h : a.merge b = .ok c) :
    a.max_hash = b.max_hash := by
  by_contra hne
  obtain ⟨e, he⟩ := (check_compatible_ma_error_iff a b).mpr
    (Or.inr (Or.inr (Or.inr (Or.inr hne))))
  unfold KmerMinAbundance.merge at h
  rw [he] at h
  simp at h

/-- **C8 (confirmed).**  On sketches with `max_hash > 0` the invariant
`∀ h ∈ mins, h ≤ max_hash` is preserved by `add_hash` (weighted and
unweighted), `remove_hash` and `merge`, and `add_hash h` with `h > max_hash`
leaves `mins` (and `abunds`) completely unchanged. -/
theorem C8_max_hash_invariant :
    (∀ (s : KmerMinHash) (h : Nat), s.max_hash ≠ 0 → s.max_hash < h →
        s.add_hash h = s)
    ∧ (∀ (s : KmerMinAbundance) (h : Nat), s.max_hash ≠ 0 → s.max_hash < h →
        s.add_hash h = s)
    ∧ (∀ (s : KmerMinHash) (h : Nat), s.max_hash ≠ 0 → (∀ y ∈ s.mins, y ≤ s.max_hash) →
        ∀ x ∈ (s.add_hash h).mins, x ≤ (s.add_hash h).max_hash)
    ∧ (∀ (s : KmerMinAbundance) (h : Nat), s.max_hash ≠ 0 → (∀ y ∈ s.mins, y ≤ s.max_hash) →
        ∀ x ∈ (s.add_hash h).mins, x ≤ (s.add_hash h).max_hash)
    ∧ (∀ (s : KmerMinHash) (h : Nat), (∀ y ∈ s.mins, y ≤ s.max_hash) →
        ∀ x ∈ (s.remove_hash h).mins, x ≤ (s.remove_hash h).max_hash)
    ∧ (∀ (s : KmerMinAbundance) (h : Nat), (∀ y ∈ s.mins, y ≤ s.max_hash) →
        ∀ x ∈ (s.remove_hash h).mins, x ≤ (s.remove_hash h).max_hash)
    ∧ (∀ (a b c : KmerMinHash), (∀ y ∈ a.mins, y ≤ a.max_hash) →
        (∀ y ∈ b.mins, y ≤ b.max_hash) → a.merge b = .ok c →
        ∀ x ∈ c.mins, x ≤ c.max_hash)
    ∧ (∀ (a b c : KmerMinAbundance), (∀ y ∈ a.mins, y ≤ a.max_hash) →
        (∀ y ∈ b.mins, y ≤ b.max_hash) → a.merge b = .ok c →
        ∀ x ∈ c.mins, x ≤ c.max_hash) := by
  refine ⟨?_, ?_, ?_, ?_, ?_, ?_, ?_, ?_⟩
  · intro s h hM hgt
    exact add_hash_reject hM hgt
  · intro s h hM hgt
    exact add_hash_ma_reject hM hgt
  · intro s h hM hinv x hx
    by_cases hacc : h ≤ s.max_hash
    · rcases add_hash_mins_subset hx with h1 | rfl
      · exact hinv x h1
      · exact hacc
    · rw [add_hash_reject hM (by omega)] at hx ⊢
      exact hinv x hx
  · intro s h hM hinv x hx
    by_cases hacc : h ≤ s.max_hash
    · rcases add_hash_ma_subset hx with h1 | rfl
      · exact hinv x h1
      · exact hacc
    · rw [add_hash_ma_reject hM (by omega)] at hx ⊢
      exact hinv x hx
  · intro s h hinv x hx
    have hmx : (s.remove_hash h).max_hash = s.max_hash := by
      unfold KmerMinHash.remove_hash
      split <;> rfl
    rw [hmx]
    unfold KmerMinHash.remove_hash at hx
    split at hx
    · exact hinv x ((List.eraseIdx_sublist _ _).mem hx)
    · exact hinv x hx
  · intro s h hinv x hx
    have hmx : (s.remove_hash h).max_hash = s.max_hash := by
      unfold KmerMinAbundance.remove_hash
      split <;> rfl
    rw [hmx]
    unfold KmerMinAbundance.remove_hash at hx
    split at hx
    · exact hinv x ((List.eraseIdx_sublist _ _).mem hx)
    · exact hinv x hx
  · intro a b c hia hib hok x hx
    obtain ⟨hcm, hsub⟩ := merge_ok_inv hok
    have hmm := merge_ok_same_max_hash hok
    rw [hcm]
    rcases hsub x hx with h1 | h1
    · exact hia x h1
    · rw [hmm]
      exact hib x h1
  · intro a b c hia hib hok x hx
    obtain ⟨hcm, hsub⟩ := merge_ma_ok_inv hok
    have hmm := merge_ma_ok_same_max_hash hok
    rw [hcm]
    rcases hsub x hx with h1 | h1
    · exact hia x h1
    · rw [hmm]
      exact hib x h1

/-- Concrete sketches for the C8 witness. -/
def c8u : KmerMinHash := ⟨0, 21, false, false, 42, 50, [10, 20]⟩

/-- An empty companion sketch compatible with `c8u`. -/
def c8u0 : KmerMinHash := ⟨0, 21, false, false, 42, 50, []⟩

/-- Concrete weighted sketch for the C8 witness. -/
def c8w : KmerMinAbundance := ⟨0, 21, false, false, 42, 50, [10, 20], [1, 2]⟩

/-- An empty weighted companion compatible with `c8w`. -/
def c8w0 : KmerMinAbundance := ⟨0, 21, false, false, 42, 50, [], []⟩

theorem C8_witness :
    (c8u.max_hash ≠ 0 ∧ c8u.max_hash < 60 ∧ c8u.add_hash 60 = c8u)
    ∧ c8w.add_hash 60 = c8w
    ∧ (∀ x ∈ (c8u.add_hash 30).mins, x ≤ (c8u.add_hash 30).max_hash)
    ∧ (∀ x ∈ (c8w.add_hash 30).mins, x ≤ (c8w.add_hash 30).max_hash)
    ∧ (∀ x ∈ (c8u.remove_hash 10).mins, x ≤ (c8u.remove_hash 10).max_hash)
    ∧ (∀ x ∈ (c8w.remove_hash 10).mins, x ≤ (c8w.remove_hash 10).max_hash)
    ∧ (∀ x ∈ c8u.mins, x ≤ c8u.max_hash)
    ∧ (∀ x ∈ c8w.mins, x ≤ c8w.max_hash) :=
  ⟨⟨by decide, by decide, C8_max_hash_invariant.1 c8u 60 (by decide) (by decide)⟩,
    C8_max_hash_invariant.2.1 c8w 60 (by decide) (by decide),
    C8_max_hash_invariant.2.2.1 c8u 30 (by decide) (by decide),
    C8_max_hash_invariant.2.2.2.1 c8w 30 (by decide) (by decide),
    C8_max_hash_invariant.2.2.2.2.1 c8u 10 (by decide),
    C8_max_hash_invariant.2.2.2.2.2.1 c8w 10 (by decide),
    C8_max_hash_invariant.2.2.2.2.2.2.1 c8u c8u0 c8u (by decide) (by decide)
      (by simp [KmerMinHash.merge, check_compatible, set_union, c8u, c8u0]),
    C8_max_hash_invariant.2.2.2.2.2.2.2 c8w c8w0 c8w (by decide) (by decide)
      (by simp [KmerMinAbundance.merge, check_compatible_ma, merge_loop, c8w, c8w0])⟩

/-- **C10 (confirmed).**  For every sketch and every hash `h` not contained
in `mins`, `remove_hash h` raises no error and leaves `mins` (and `abunds`,
when weighted) exactly unchanged: the lower-bound position either is the end
or holds a different element, so the erase branch is not taken. -/
theorem C10_remove_absent_noop :
    ∀ (s : KmerMinHash) (t : KmerMinAbundance) (h : Nat),
      h ∉ s.mins → h ∉ t.mins → s.remove_hash h = s ∧ t.remove_hash h = t := by
  intro s t h hns hnt
  constructor
  · unfold KmerMinHash.remove_hash
    rw [if_neg]
    rintro ⟨hne, heq⟩
    have hlt : lowerBound s.mins h < s.mins.length := lt_of_le_of_ne (lb_le _ _) hne
    exact hns (heq ▸ getD_mem _ _ hlt)
  · unfold KmerMinAbundance.remove_hash
    rw [if_neg]
    rintro ⟨hne, heq⟩
    have hlt : lowerBound t.mins h < t.mins.length := lt_of_le_of_ne (lb_le _ _) hne
    exact hnt (heq ▸ getD_mem _ _ hlt)

theorem C10_witness :
    ((15 : Nat) ∉ c8u.mins ∧ (15 : Nat) ∉ c8w.mins)
    ∧ c8u.remove_hash 15 = c8u ∧ c8w.remove_hash 15 = c8w :=
  ⟨⟨by decide, by decide⟩,
    (C10_remove_absent_noop c8u c8w 15 (by decide) (by decide)).1,
    (C10_remove_absent_noop c8u c8w 15 (by decide) (by decide)).2⟩

/-- **C3, amended.**  `merge` and `count_common` raise a mismatch error if
and only if the two sketches differ in `ksize`, `moltype` (`is_protein` /
`dayhoff`), `seed` or `max_hash`; `num` is *not* compared by
`check_compatible`, contrary to the claim.  The error is exactly the one
produced by `check_compatible`, which runs before any mutation, so on an
error the receiver's `mins` and `abunds` are unchanged. -/
theorem C3_mismatch_iff :
    (∀ a b : KmerMinHash, (∃ e, a.merge b = .error e) ↔ mismatch a b)
    ∧ (∀ a b : KmerMinHash, (∃ e, count_common a b = .error e) ↔ mismatch a b)
    ∧ (∀ a b : KmerMinAbundance, (∃ e, a.merge b = .error e) ↔ mismatch_ma a b)
    ∧ (∀ (a b : KmerMinHash) (e : String), a.merge b = .error e →
        check_compatible a b = .error e) := by
  refine ⟨?_, ?_, ?_, ?_⟩
  · intro a b
    rw [← check_compatible_error_iff]
    unfold KmerMinHash.merge
    cases hcc : check_compatible a b with
    | error e => simp
    | ok u =>
      constructor
      · rintro ⟨e, he⟩
        split at he
        · simp_all
        · split at he <;> simp_all
      · rintro ⟨e, he⟩
        exact Except.noConfusion he
  · intro a b
    rw [← check_compatible_error_iff]
    unfold count_common
    cases hcc : check_compatible a b with
    | error e => simp
    | ok u =>
      constructor
      · rintro ⟨e, he⟩
        split at he <;> simp_all
      · rintro ⟨e, he⟩
        exact Except.noConfusion he
  · intro a b
    rw [← check_compatible_ma_error_iff]
    unfold KmerMinAbundance.merge
    cases hcc : check_compatible_ma a b with
    | error e => simp
    | ok u =>
      constructor
      · rintro ⟨e, he⟩
        split at he
        · simp_all
        · split at he <;> simp_all
      · rintro ⟨e, he⟩
        exact Except.noConfusion he
  · intro a b e
    unfold KmerMinHash.merge
    cases hcc : check_compatible a b with
    | error e2 =>
      intro he
      simp only [Except.error.injEq] at he
      rw [he]
    | ok u =>
      intro he
      split at he
      · simp_all
      · split at he <;> simp_all

/-- The C3 counterexample pair: identical except for `num`. -/
def c3a : KmerMinHash := ⟨1, 21, false, false, 42, 0, []⟩

/-- Same as `c3a` with `num = 2`. -/
def c3b : KmerMinHash := ⟨2, 21, false, false, 42, 0, []⟩

/-- A sketch differing from `c3a` in `ksize`, for the C3 witness. -/
def c3c : KmerMinHash := ⟨1, 31, false, false, 42, 0, []⟩

/-- **C3, counterexample to the claim as stated.**  Two sketches that differ
only in `num` are accepted by `check_compatible`: `merge` and `count_common`
succeed rather than raising a mismatch error. -/
theorem C3_counterexample :
    c3a.num ≠ c3b.num ∧ c3a.merge c3b = .ok c3a ∧ count_common c3a c3b = .ok 0 := by
  refine ⟨by decide, ?_, ?_⟩
  · simp [KmerMinHash.merge, check_compatible, set_union, c3a, c3b]
  · simp [count_common, check_compatible, set_inter_count, c3a, c3b]

theorem C3_witness :
    c3a.merge c3c = .error "different ksizes cannot be compared"
    ∧ check_compatible c3a c3c = .error "different ksizes cannot be compared" :=
  ⟨by rfl,
    C3_mismatch_iff.2.2.2 c3a c3c "different ksizes cannot be compared" (by rfl)⟩

/-- Weighted sketch `A = {7: 2, 9: 1}` of the spec's weighted-merge scenario,
in the scaled configuration `num = 0`, `max_hash = 100`. -/
def c2a : KmerMinAbundance := ⟨0, 21, false, false, 42, 100, [7, 9], [2, 1]⟩

/-- Weighted sketch `B = {7: 3, 11: 5}`, compatible with `c2a`. -/
def c2b : KmerMinAbundance := ⟨0, 21, false, false, 42, 100, [7, 11], [3, 5]⟩

/-- **C2 (code bug in `src/sourmash_lib`).**  On an unbounded weighted sketch
(`num = 0`) the older revision's `KmerMinAbundance::merge` ends with
`if (merged_mins.size() < num)`, with no `|| !num` escape: `3 < 0` is false,
so the result is truncated to the first `num = 0` entries and the merged
sketch is emptied.  The newer revision (`src/sourmash` lines 512-518, with
`|| !num`) behaves as the claim states and yields the abundance-summed union
`mins = [7, 9, 11]`, `abunds = [5, 1, 5]` of the spec's scenario 3. -/
theorem C2_mergeLib_num_zero_bug :
    c2a.mergeLib c2b = .ok ⟨0, 21, false, false, 42, 100, [], []⟩
    ∧ c2a.merge c2b = .ok ⟨0, 21, false, false, 42, 100, [7, 9, 11], [5, 1, 5]⟩ := by
  constructor
  · simp [KmerMinAbundance.mergeLib, check_compatible_ma, merge_loop, c2a, c2b]
  · simp [KmerMinAbundance.merge, check_compatible_ma, merge_loop, c2a, c2b]

/-! ### Sequence intake: DNA windows, translation, `add_sequence` -/

/-- The DNA alphabet accepted by `_checkdna`. -/
def dnaChars : List Char := ['A', 'C', 'G', 'T']

/-- Lexicographic comparison of character sequences: the semantics of
`operator<` on `std::string` used by `if (kmer < rc)`. -/
def str_lt : List Char → List Char → Bool
  | [], [] => false
  | [], _ :: _ => true
  | _ :: _, [] => false
  | a :: as, b :: bs => if a < b then true else if b < a then false else str_lt as bs

/-- The canonical form of a DNA k-mer: the lexicographically smaller of the
k-mer and its reverse complement (`if (kmer < rc) add_word(kmer) else
add_word(rc)`). -/
def canonical (w : List Char) : String :=
  if str_lt w (_revcomp w) then String.mk w else String.mk (_revcomp w)

/-- The length-`k` windows of a sequence, in the order the
`for (i = 0; i < seq.length() - ksize + 1; i++)` loop visits them
(`seq.substr(i, ksize)`). -/
def dna_windows (k : Nat) (sq : List Char) : List (List Char) :=
  (List.range (sq.length + 1 - k)).map (fun i => (sq.drop i).take k)

/-- The DNA loop of `KmerMinHash::add_sequence` in `src/sourmash`
(lines 141-161): for each window, an invalid window is skipped under
`force` and otherwise aborts the call with the k-mer in the message; a valid
window contributes `add_word` of its canonical form. -/
def dna_loop (hf : String → Nat → Nat) (num max_hash seed : Nat) (force : Bool) :
    List (List Char) → List Nat → Except String (List Nat)
  | [], mins => .ok mins
  | w :: ws, mins =>
    if _checkdna w = false then
      if force then dna_loop hf num max_hash seed force ws mins
      else .error ("invalid DNA character in input k-mer: " ++ String.mk w)
    else
      dna_loop hf num max_hash seed force ws
        (add_hash_mins num max_hash mins (hf (canonical w) seed))

/-- The DNA loop of the older revision (`src/sourmash_lib` lines 127-146):
identical except that the error message carries only the last character of
the offending window (`seq[i + ksize - 1]`). -/
def dna_loop_lib (hf : String → Nat → Nat) (num max_hash seed : Nat) (force : Bool) :
    List (List Char) → List Nat → Except String (List Nat)
  | [], mins => .ok mins
  | w :: ws, mins =>
    if _checkdna w = false then
      if force then dna_loop_lib hf num max_hash seed force ws mins
      else .error ("invalid DNA character in input: " ++ String.mk [w.getLastD ' '])
    else
      dna_loop_lib hf num max_hash seed force ws
        (add_hash_mins num max_hash mins (hf (canonical w) seed))

/-- The `_codon_table` of `src/sourmash` (lines 318-359), including the
`N`-padded ambiguity entries. -/
def _codon_table : List (String × String) :=
  [("TTT", "F"), ("TTC", "F"), ("TTA", "L"), ("TTG", "L"),
   ("TCT", "S"), ("TCC", "S"), ("TCA", "S"), ("TCG", "S"), ("TCN", "S"),
   ("TAT", "Y"), ("TAC", "Y"), ("TAA", "*"), ("TAG", "*"),
   ("TGT", "C"), ("TGC", "C"), ("TGA", "*"), ("TGG", "W"),
   ("CTT", "L"), ("CTC", "L"), ("CTA", "L"), ("CTG", "L"), ("CTN", "L"),
   ("CCT", "P"), ("CCC", "P"), ("CCA", "P"), ("CCG", "P"), ("CCN", "P"),
   ("CAT", "H"), ("CAC", "H"), ("CAA", "Q"), ("CAG", "Q"),
   ("CGT", "R"), ("CGC", "R"), ("CGA", "R"), ("CGG", "R"), ("CGN", "R"),
   ("ATT", "I"), ("ATC", "I"), ("ATA", "I"), ("ATG", "M"),
   ("ACT", "T"), ("ACC", "T"), ("ACA", "T"), ("ACG", "T"), ("ACN", "T"),
   ("AAT", "N"), ("AAC", "N"), ("AAA", "K"), ("AAG", "K"),
   ("AGT", "S"), ("AGC", "S"), ("AGA", "R"), ("AGG", "R"),
   ("GTT", "V"), ("GTC", "V"), ("GTA", "V"), ("GTG", "V"), ("GTN", "V"),
   ("GCT", "A"), ("GCC", "A"), ("GCA", "A"), ("GCG", "A"), ("GCN", "A"),
   ("GAT", "D"), ("GAC", "D"), ("GAA", "E"), ("GAG", "E"),
   ("GGT", "G"), ("GGC", "G"), ("GGA", "G"), ("GGG", "G"), ("GGN", "G")]

/-- The `_codon_table` of `src/sourmash_lib` (lines 245-286): the 64
standard codons only, no `N` entries. -/
def _codon_table_lib : List (String × String) :=
  [("TTT", "F"), ("TTC", "F"), ("TTA", "L"), ("TTG", "L"),
   ("TCT", "S"), ("TCC", "S"), ("TCA", "S"), ("TCG", "S"),
   ("TAT", "Y"), ("TAC", "Y"), ("TAA", "*"), ("TAG", "*"),
   ("TGT", "C"), ("TGC", "C"), ("TGA", "*"), ("TGG", "W"),
   ("CTT", "L"), ("CTC", "L"), ("CTA", "L"), ("CTG", "L"),
   ("CCT", "P"), ("CCC", "P"), ("CCA", "P"), ("CCG", "P"),
   ("CAT", "H"), ("CAC", "H"), ("CAA", "Q"), ("CAG", "Q"),
   ("CGT", "R"), ("CGC", "R"), ("CGA", "R"), ("CGG", "R"),
   ("ATT", "I"), ("ATC", "I"), ("ATA", "I"), ("ATG", "M"),
   ("ACT", "T"), ("ACC", "T"), ("ACA", "T"), ("ACG", "T"),
   ("AAT", "N"), ("AAC", "N"), ("AAA", "K"), ("AAG", "K"),
   ("AGT", "S"), ("AGC", "S"), ("AGA", "R"), ("AGG", "R"),
   ("GTT", "V"), ("GTC", "V"), ("GTA", "V"), ("GTG", "V"),
   ("GCT", "A"), ("GCC", "A"), ("GCA", "A"), ("GCG", "A"),
   ("GAT", "D"), ("GAC", "D"), ("GAA", "E"), ("GAG", "E"),
   ("GGT", "G"), ("GGC", "G"), ("GGA", "G"), ("GGG", "G")]

/-- The `_dayhoff_table` of `src/sourmash` (lines 383-396). -/
def _dayhoff_table : List (String × String) :=
  [("C", "a"),
   ("A", "b"), ("G", "b"), ("P", "b"), ("S", "b"), ("T", "b"),
   ("D", "c"), ("E", "c"), ("N", "c"), ("Q", "c"),
   ("H", "d"), ("K", "d"), ("R", "d"),
   ("I", "e"), ("L", "e"), ("M", "e"), ("V", "e"),
   ("F", "f"), ("W", "f"), ("Y", "f")]

/-- `KmerMinHash::translate_codon` of `src/sourmash` (lines 185-212): full
length handling — pad a length-2 codon with `N`, look the codon up in the
table with `X` as the unknown fallback, map a single nucleotide to `X`, and
throw for any other length. -/
def translate_codon (codon : List Char) : Except String (List Char) :=
  if 2 ≤ codon.length ∧ codon.length ≤ 3 then
    let codon2 := if codon.length = 2 then codon ++ ['N'] else codon
    match _codon_table.lookup (String.mk codon2) with
    | some residue => .ok residue.toList
    | none => .ok ['X']
  else if codon.length = 1 then .ok ['X']
  else .error ("Codon is invalid length: " ++ String.mk codon)

/-- The residue `translate_codon` produces for a complete (length-3) codon:
table lookup with `X` fallback. -/
def codonResidue (c : List Char) : List Char :=
  match _codon_table.lookup (String.mk c) with
  | some residue => residue.toList
  | none => ['X']

/-- `KmerMinHash::aa_to_dayhoff` of `src/sourmash` (lines 269-283). -/
def aa_to_dayhoff (aa : List Char) : List Char :=
  match _dayhoff_table.lookup (String.mk aa) with
  | some d => d.toList
  | none => ['X']

/-- On a complete codon, `translate_codon` never throws and agrees with
`codonResidue`. -/
theorem translate_codon_complete (c1 c2 c3 : Char) :
    translate_codon [c1, c2, c3] = .ok (codonResidue [c1, c2, c3]) := by
  unfold translate_codon codonResidue
  rw [if_pos (by simp)]
  simp only [List.length_cons, List.length_nil]
  rw [if_neg (by omega)]
  cases _codon_table.lookup (String.mk [c1, c2, c3]) <;> rfl

/-- `KmerMinHash::_dna_to_aa` of `src/sourmash` (lines 214-235): the loop
`for (j = 0; j < (dna.size() / 3) * 3; j += 3)` translates the complete
codons `dna.substr(j, 3)` in order (incomplete tails are never passed to
`translate_codon`), applying the Dayhoff re-encoding per residue when
enabled. -/
def _dna_to_aa (dayhoff : Bool) (dna : List Char) : List Char :=
  ((List.range (dna.length / 3)).map (fun j =>
    let residue := codonResidue ((dna.drop (3 * j)).take 3)
    if dayhoff then aa_to_dayhoff residue else residue)).flatten

/-- `KmerMinHash::_dna_to_aa` of `src/sourmash_lib` (lines 170-178): the
same complete-codon loop, but `aa += (_codon_table)[codon]` uses
`std::map::operator[]`, which yields a default-constructed empty string for
a codon that is not in the (N-free) table. -/
def _dna_to_aa_lib (dna : List Char) : List Char :=
  ((List.range (dna.length / 3)).map (fun j =>
    ((_codon_table_lib.lookup (String.mk ((dna.drop (3 * j)).take 3))).getD "").toList)).flatten

/-- The amino-acid k-mer windows hashed for one translated frame: the C++
loop bound `aa.length() - aa_ksize + 1` is unsigned; for every input
reachable from `add_sequence` (where `strlen(seq) >= ksize`) it equals the
truncated-subtraction value `aa.length + 1 - aa_ksize` used here. -/
def frame_words (aak : Nat) (aa : List Char) : List String :=
  (List.range (aa.length + 1 - aak)).map (fun j => String.mk ((aa.drop j).take aak))

/-- The words hashed by the protein branch of `src/sourmash` `add_sequence`
(lines 162-182), in loop order: frames `i = 0, 1, 2`, forward then
reverse-complement, with amino-acid k-mer length `int(ksize / 3)`. -/
def protein_words (dayhoff : Bool) (ksize : Nat) (sq : List Char) : List String :=
  ((List.range 3).map (fun i =>
    frame_words (ksize / 3) (_dna_to_aa dayhoff (sq.drop i))
      ++ frame_words (ksize / 3) (_dna_to_aa dayhoff ((_revcomp sq).drop i)))).flatten

/-- The protein words of the older revision (`src/sourmash_lib`
lines 147-167), using its `_dna_to_aa`. -/
def protein_words_lib (ksize : Nat) (sq : List Char) : List String :=
  ((List.range 3).map (fun i =>
    frame_words (ksize / 3) (_dna_to_aa_lib (sq.drop i))
      ++ frame_words (ksize / 3) (_dna_to_aa_lib ((_revcomp sq).drop i)))).flatten

/-- `KmerMinHash::add_sequence` of `src/sourmash` (lines 134-183): no-op on
inputs shorter than `ksize`, uppercase the input (`::toupper`, modelled by
`Char.toUpper`, which agrees on ASCII), then either the DNA window loop or
the six-frame protein translation; every produced word is hashed with
`_hash_murmur` (the parameter `hf`) and inserted with `add_hash`. -/
def add_sequence (hf : String → Nat → Nat) (s : KmerMinHash) (seq : List Char)
    (force : Bool) : Except String KmerMinHash :=
  if seq.length < s.ksize then .ok s
  else
    if s.is_protein = false then
      match dna_loop hf s.num s.max_hash s.seed force
          (dna_windows s.ksize (seq.map Char.toUpper)) s.mins with
      | .ok m => .ok { s with mins := m }
      | .error e => .error e
    else
      .ok { s with mins := (add_many_mins s.num s.max_hash s.mins
              ((protein_words s.dayhoff s.ksize (seq.map Char.toUpper)).map
                (fun w => hf w s.seed))) }

/-- `KmerMinHash::add_sequence` of `src/sourmash_lib` (lines 121-168): the
same structure, but the input is *not* uppercased, the DNA error message
differs, and the older `_dna_to_aa` is used. -/
def add_sequence_lib (hf : String → Nat → Nat) (s : KmerMinHash) (seq : List Char)
    (force : Bool) : Except String KmerMinHash :=
  if seq.length < s.ksize then .ok s
  else
    if s.is_protein = false then
      match dna_loop_lib hf s.num s.max_hash s.seed force
          (dna_windows s.ksize seq) s.mins with
      | .ok m => .ok { s with mins := m }
      | .error e => .error e
    else
      .ok { s with mins := (add_many_mins s.num s.max_hash s.mins
              ((protein_words_lib s.ksize seq).map (fun w => hf w s.seed))) }

/-! ### DNA loop lemmas and alphabet facts -/

theorem dna_loop_all_valid (hf : String → Nat → Nat) (num max_hash seed : Nat)
    (force : Bool) :
    ∀ (ws : List (List Char)) (m : List Nat), (∀ w ∈ ws, _checkdna w = true) →
      dna_loop hf num max_hash seed force ws m
        = .ok (add_many_mins num max_hash m (ws.map (fun w => hf (canonical w) seed))) := by
  intro ws
  induction ws with
  | nil => intro m _; rfl
  | cons w ws ih =>
    intro m hv
    have hw : _checkdna w = true := hv w (List.mem_cons_self w ws)
    unfold dna_loop
    rw [if_neg (by simp [hw])]
    exact ih _ (fun y hy => hv y (List.mem_cons_of_mem w hy))

theorem dna_loop_lib_all_valid (hf : String → Nat → Nat) (num max_hash seed : Nat)
    (force : Bool) :
    ∀ (ws : List (List Char)) (m : List Nat), (∀ w ∈ ws, _checkdna w = true) →
      dna_loop_lib hf num max_hash seed force ws m
        = .ok (add_many_mins num max_hash m (ws.map (fun w => hf (canonical w) seed))) := by
  intro ws
  induction ws with
  | nil => intro m _; rfl
  | cons w ws ih =>
    intro m hv
    have hw : _checkdna w = true := hv w (List.mem_cons_self w ws)
    unfold dna_loop_lib
    rw [if_neg (by simp [hw])]
    exact ih _ (fun y hy => hv y (List.mem_cons_of_mem w hy))

theorem dna_loop_force (hf : String → Nat → Nat) (num max_hash seed : Nat) :
    ∀ (ws : List (List Char)) (m : List Nat),
      dna_loop hf num max_hash seed true ws m
        = .ok (add_many_mins num max_hash m
            ((ws.filter _checkdna).map (fun w => hf (canonical w) seed))) := by
  intro ws
  induction ws with
  | nil => intro m; rfl
  | cons w ws ih =>
    intro m
    unfold dna_loop
    by_cases hw : _checkdna w = true
    · rw [if_neg (by simp [hw]), List.filter_cons_of_pos hw, List.map_cons]
      exact ih _
    · rw [if_pos (by simpa using hw), if_pos rfl,
        List.filter_cons_of_neg (by simpa using hw)]
      exact ih _

theorem dna_loop_first_error (hf : String → Nat → Nat) (num max_hash seed : Nat) :
    ∀ (ws : List (List Char)) (j : Nat) (m : List Nat), j < ws.length →
      (∀ i, i < j → _checkdna (ws.getD i []) = true) →
      _checkdna (ws.getD j []) = false →
      dna_loop hf num max_hash seed false ws m
        = .error ("invalid DNA character in input k-mer: " ++ String.mk (ws.getD j [])) := by
  intro ws
  induction ws with
  | nil =>
    intro j m hj _ _
    simp at hj
  | cons w ws ih =>
    intro j m hj hprev hbad
    cases j with
    | zero =>
      simp only [List.getD_cons_zero] at hbad
      unfold dna_loop
      rw [if_pos (by simp [hbad]), if_neg (by simp)]
      simp
    | succ j =>
      have hw : _checkdna w = true := by
        have := hprev 0 (by omega)
        simpa using this
      unfold dna_loop
      rw [if_neg (by simp [hw])]
      simp only [List.getD_cons_succ] at hbad ⊢
      exact ih j _ (by simpa using hj)
        (fun i hi => by simpa using hprev (i + 1) (by omega)) hbad

theorem dna_loop_eq_lib_of_valid (hf : String → Nat → Nat) (num max_hash seed : Nat)
    (force : Bool) :
    ∀ (ws : List (List Char)) (m : List Nat), (∀ w ∈ ws, _checkdna w = true) →
      dna_loop hf num max_hash seed force ws m
        = dna_loop_lib hf num max_hash seed force ws m := by
  intro ws m hv
  rw [dna_loop_all_valid hf num max_hash seed force ws m hv,
    dna_loop_lib_all_valid hf num max_hash seed force ws m hv]

theorem checkdna_of_valid {w : List Char} (hv : ∀ c ∈ w, c ∈ dnaChars) :
    _checkdna w = true := by
  induction w with
  | nil => rfl
  | cons c cs ih =>
    have hc := hv c (List.mem_cons_self c cs)
    unfold _checkdna
    rw [if_pos (by simpa [dnaChars] using hc)]
    exact ih (fun y hy => hv y (List.mem_cons_of_mem c hy))

theorem tblc_mem {c : Char} (hc : c ∈ dnaChars) : tblc c ∈ dnaChars := by
  simp only [dnaChars, List.mem_cons, List.not_mem_nil, or_false] at hc
  rcases hc with rfl | rfl | rfl | rfl <;> decide

theorem tblc_tblc {c : Char} (hc : c ∈ dnaChars) : tblc (tblc c) = c := by
  simp only [dnaChars, List.mem_cons, List.not_mem_nil, or_false] at hc
  rcases hc with rfl | rfl | rfl | rfl <;> decide

theorem toUpper_dna {c : Char} (hc : c ∈ dnaChars) : c.toUpper = c := by
  simp only [dnaChars, List.mem_cons, List.not_mem_nil, or_false] at hc
  rcases hc with rfl | rfl | rfl | rfl <;> decide

theorem revcomp_length (w : List Char) : (_revcomp w).length = w.length := by
  simp [_revcomp]

theorem revcomp_valid {w : List Char} (hv : ∀ c ∈ w, c ∈ dnaChars) :
    ∀ c ∈ _revcomp w, c ∈ dnaChars := by
  intro c hc
  unfold _revcomp at hc
  rw [List.mem_reverse] at hc
  obtain ⟨d, hd, rfl⟩ := List.mem_map.mp hc
  exact tblc_mem (hv d hd)

theorem revcomp_revcomp {w : List Char} (hv : ∀ c ∈ w, c ∈ dnaChars) :
    _revcomp (_revcomp w) = w := by
  unfold _revcomp
  rw [List.map_reverse, List.reverse_reverse, List.map_map]
  have : ∀ c ∈ w, (tblc ∘ tblc) c = id c := fun c hc => tblc_tblc (hv c hc)
  rw [List.map_congr_left this, List.map_id]

theorem str_lt_asymm : ∀ {a b : List Char}, str_lt a b = true → str_lt b a = false := by
  intro a
  induction a with
  | nil =>
    intro b hab
    cases b with
    | nil => simp [str_lt] at hab
    | cons y ys => simp [str_lt]
  | cons x xs ih =>
    intro b hab
    cases b with
    | nil => simp [str_lt] at hab
    | cons y ys =>
      unfold str_lt at hab ⊢
      by_cases hxy : x < y
      · rw [if_neg (by exact asymm hxy), if_pos hxy]
      · rw [if_neg hxy] at hab
        by_cases hyx : y < x
        · rw [if_pos hyx] at hab
          exact absurd hab (by simp)
        · rw [if_neg hyx] at hab
          rw [if_neg hyx, if_neg hxy]
          exact ih hab

theorem str_lt_total_eq : ∀ {a b : List Char},
    str_lt a b = false → str_lt b a = false → a = b := by
  intro a
  induction a with
  | nil =>
    intro b hab _
    cases b with
    | nil => rfl
    | cons y ys => simp [str_lt] at hab
  | cons x xs ih =>
    intro b hab hba
    cases b with
    | nil => simp [str_lt] at hba
    | cons y ys =>
      unfold str_lt at hab hba
      by_cases hxy : x < y
      · rw [if_pos hxy] at hab
        exact absurd hab (by simp)
      · rw [if_neg hxy] at hab
        by_cases hyx : y < x
        · rw [if_pos hyx] at hba
          exact absurd hba (by simp)
        · rw [if_neg hyx] at hab
          rw [if_neg hyx, if_neg hxy] at hba
          have hx : x = y := le_antisymm (not_lt.mp hyx) (not_lt.mp hxy)
          rw [hx, ih hab hba]

theorem canonical_revcomp {w : List Char} (hv : ∀ c ∈ w, c ∈ dnaChars) :
    canonical (_revcomp w) = canonical w := by
  unfold canonical
  rw [revcomp_revcomp hv]
  cases hab : str_lt w (_revcomp w)
  · cases hba : str_lt (_revcomp w) w
    · rw [if_neg (by simp), if_neg (by simp), ← str_lt_total_eq hab hba]
    · simp
  · simp [str_lt_asymm hab]

theorem range_map_reverse {α : Type} (g : Nat → α) (n : Nat) :
    ((List.range n).map g).reverse = (List.range n).map (fun i => g (n - 1 - i)) := by
  rw [← List.map_reverse, List.range_eq_range', List.reverse_range', List.map_map,
    ← List.range_eq_range']
  apply List.map_congr_left
  intro i hi
  simp only [Function.comp_apply]
  congr 1
  omega

theorem window_valid {sq : List Char} (hv : ∀ c ∈ sq, c ∈ dnaChars) (i k : Nat) :
    ∀ c ∈ (sq.drop i).take k, c ∈ dnaChars :=
  fun c hc => hv c ((List.drop_sublist i sq).mem (List.mem_of_mem_take hc))

theorem mem_dna_windows_valid {sq : List Char} (hv : ∀ c ∈ sq, c ∈ dnaChars) {k : Nat}
    {w : List Char} (hw : w ∈ dna_windows k sq) : ∀ c ∈ w, c ∈ dnaChars := by
  unfold dna_windows at hw
  obtain ⟨i, -, rfl⟩ := List.mem_map.mp hw
  exact window_valid hv i k


theorem rev_window (m : List Char) (L k i : Nat) (hL : m.length = L) (hik : i + k ≤ L) :
    (m.reverse.drop i).take k = ((m.drop (L - k - i)).take k).reverse := by
  have h1 : m.reverse.drop i = (m.take (L - i)).reverse := by
    rw [List.drop_reverse, hL]
  rw [h1]
  have h2 : ((m.take (L - i)).drop (L - i - k)).reverse
      = (m.take (L - i)).reverse.take ((m.take (L - i)).length - (L - i - k)) :=
    List.reverse_drop
  have hlen : (m.take (L - i)).length = L - i := by
    rw [List.length_take, hL]
    omega
  rw [hlen] at h2
  have h3 : (L - i) - (L - i - k) = k := by omega
  rw [h3] at h2
  rw [← h2, List.drop_take]
  have h4 : L - i - k = L - k - i := by omega
  rw [h4]
  rw [show L - i - (L - k - i) = k from by omega]

/-- The length-`k` windows of the reverse complement are the reverse
complements of the windows, in reverse order. -/
theorem dna_windows_revcomp (k : Nat) (sq : List Char) :
    dna_windows k (_revcomp sq) = ((dna_windows k sq).map _revcomp).reverse := by
  unfold dna_windows
  rw [List.map_map, range_map_reverse (_revcomp ∘ fun i => (sq.drop i).take k)]
  have hlen : (_revcomp sq).length = sq.length := by simp [_revcomp]
  rw [hlen]
  apply List.map_congr_left
  intro i hi
  rw [List.mem_range] at hi
  simp only [Function.comp_apply]
  unfold _revcomp
  rw [List.map_take, List.map_drop]
  rw [rev_window (sq.map tblc) sq.length k i (by simp) (by omega)]
  rw [show sq.length + 1 - k - 1 - i = sq.length - k - i from by omega]

/-- **C5 (confirmed).**  `add_sequence` on a DNA sketch: (i) a call with
`|seq| < ksize` is a no-op; (ii) with `force = false` the call fails with the
INVALID_DNA error naming the first window (of the uppercased input)
containing a character outside `{A, C, G, T}`, and no later window is
processed; (iii) with `force = true` every invalid window is silently
skipped and all valid windows are still added canonically. -/
theorem C5_add_sequence_dna (hf : String → Nat → Nat) :
    (∀ (s : KmerMinHash) (seq : List Char) (force : Bool),
        seq.length < s.ksize → add_sequence hf s seq force = .ok s)
    ∧ (∀ (s : KmerMinHash) (seq : List Char) (j : Nat), s.is_protein = false →
        j < (dna_windows s.ksize (seq.map Char.toUpper)).length →
        (∀ i, i < j →
          _checkdna ((dna_windows s.ksize (seq.map Char.toUpper)).getD i []) = true) →
        _checkdna ((dna_windows s.ksize (seq.map Char.toUpper)).getD j []) = false →
        add_sequence hf s seq false
          = .error ("invalid DNA character in input k-mer: "
              ++ String.mk ((dna_windows s.ksize (seq.map Char.toUpper)).getD j [])))
    ∧ (∀ (s : KmerMinHash) (seq : List Char), s.is_protein = false →
        add_sequence hf s seq true
          = .ok { s with mins := (add_many_mins s.num s.max_hash s.mins
              (((dna_windows s.ksize (seq.map Char.toUpper)).filter _checkdna).map
                (fun w => hf (canonical w) s.seed))) }) := by
  refine ⟨?_, ?_, ?_⟩
  · intro s seq force hshort
    unfold add_sequence
    rw [if_pos hshort]
  · intro s seq j hprot hj hprev hbad
    have hlen : ¬ seq.length < s.ksize := by
      intro hc
      have hz : (dna_windows s.ksize (seq.map Char.toUpper)).length = 0 := by
        unfold dna_windows
        rw [List.length_map, List.length_range, List.length_map]
        omega
      omega
    unfold add_sequence
    rw [if_neg hlen, if_pos hprot,
      dna_loop_first_error hf s.num s.max_hash s.seed _ j s.mins hj hprev hbad]
  · intro s seq hprot
    unfold add_sequence
    by_cases hshort : seq.length < s.ksize
    · rw [if_pos hshort]
      have hwin : dna_windows s.ksize (seq.map Char.toUpper) = [] := by
        unfold dna_windows
        rw [List.length_map]
        have hz : seq.length + 1 - s.ksize = 0 := by omega
        rw [hz]
        rfl
      rw [hwin]
      rfl
    · rw [if_neg hshort, if_pos hprot, dna_loop_force hf s.num s.max_hash s.seed]

/-- A simple concrete stand-in for the murmur hash, used by witnesses. -/
def hflen : String → Nat → Nat := fun w _ => w.length

/-- An empty DNA sketch with `ksize = 2`, used by the C5 witness. -/
def c5s : KmerMinHash := ⟨0, 2, false, false, 42, 0, []⟩

theorem C5_witness :
    ((['A'] : List Char).length < c5s.ksize
      ∧ add_sequence hflen c5s ['A'] false = .ok c5s)
    ∧ (c5s.is_protein = false
      ∧ 0 < (dna_windows c5s.ksize (['A', 'N', 'G', 'T'].map Char.toUpper)).length
      ∧ _checkdna ((dna_windows c5s.ksize
          (['A', 'N', 'G', 'T'].map Char.toUpper)).getD 0 []) = false
      ∧ add_sequence hflen c5s ['A', 'N', 'G', 'T'] false
          = .error ("invalid DNA character in input k-mer: "
              ++ String.mk ((dna_windows c5s.ksize
                  (['A', 'N', 'G', 'T'].map Char.toUpper)).getD 0 [])))
    ∧ add_sequence hflen c5s ['A', 'N', 'G', 'T'] true
        = .ok { c5s with mins := (add_many_mins c5s.num c5s.max_hash c5s.mins
            (((dna_windows c5s.ksize
                (['A', 'N', 'G', 'T'].map Char.toUpper)).filter _checkdna).map
              (fun w => hflen (canonical w) c5s.seed))) } :=
  ⟨⟨by decide, (C5_add_sequence_dna hflen).1 c5s ['A'] false (by decide)⟩,
    ⟨by decide, by decide, by decide,
      (C5_add_sequence_dna hflen).2.1 c5s ['A', 'N', 'G', 'T'] 0 (by decide) (by decide)
        (fun i hi => absurd hi (by omega)) (by decide)⟩,
    (C5_add_sequence_dna hflen).2.2 c5s ['A', 'N', 'G', 'T'] (by decide)⟩

/-- Order-independence of `add_hash` folds in the two single-regime modes,
from an arbitrary valid state. -/
theorem add_many_mins_perm {num M : Nat} {m : List Nat} {l1 l2 : List Nat}
    (hp : l1.Perm l2)
    (hreg : (M ≠ 0 ∧ num = 0 ∧ m.Sorted (· < ·))
          ∨ (M = 0 ∧ num ≠ 0 ∧ m.Sorted (· < ·) ∧ m.length ≤ num)) :
    add_many_mins num M m l1 = add_many_mins num M m l2 := by
  rcases hreg with ⟨hM, hn0, hs⟩ | ⟨hM0, hn, hs, hlen⟩
  · subst hn0
    rw [add_many_scaled hM l1 hs, add_many_scaled hM l2 hs]
    exact foldl_insort_perm (hp.filter _) hs
  · subst hM0
    have hm : m.take num = m := List.take_of_length_le hlen
    rw [← hm, add_many_bottomk hn l1 hs, add_many_bottomk hn l2 hs,
      foldl_insort_perm hp hs]

/-- **C6, amended.**  For every DNA sketch in a single-regime configuration
(`max_hash > 0, num = 0` or `num > 0, max_hash = 0`, with `mins` holding a
valid state) and every valid DNA string, `add_sequence` on the string and on
its reverse complement produce exactly the same result, for every hash
function: each window is hashed as the lexicographic minimum of the k-mer
and its reverse complement, and the resulting hash multiset is merely
reversed, which single-regime `add_hash` folds cannot distinguish.  (As
stated over every sketch the claim fails — see the counterexample, with
`num` and `max_hash` both nonzero.) -/
theorem C6_add_sequence_revcomp (hf : String → Nat → Nat) (s : KmerMinHash)
    (seq : List Char) (force : Bool)
    (hdna : s.is_protein = false)
    (hvalid : ∀ c ∈ seq, c ∈ dnaChars)
    (hreg : (s.max_hash ≠ 0 ∧ s.num = 0 ∧ s.mins.Sorted (· < ·))
          ∨ (s.max_hash = 0 ∧ s.num ≠ 0 ∧ s.mins.Sorted (· < ·)
              ∧ s.mins.length ≤ s.num)) :
    add_sequence hf s seq force = add_sequence hf s (_revcomp seq) force := by
  have hlen : (_revcomp seq).length = seq.length := revcomp_length seq
  unfold add_sequence
  by_cases hshort : seq.length < s.ksize
  · rw [if_pos hshort, if_pos (by rw [hlen]; exact hshort)]
  · rw [if_neg hshort, if_pos hdna,
      if_neg (show ¬ (_revcomp seq).length < s.ksize by rw [hlen]; exact hshort),
      if_pos hdna]
    have hup : seq.map Char.toUpper = seq :=
      List.map_congr_left (fun c hc => toUpper_dna (hvalid c hc)) |>.trans (List.map_id seq)
    have hvalid2 : ∀ c ∈ _revcomp seq, c ∈ dnaChars := revcomp_valid hvalid
    have hup2 : (_revcomp seq).map Char.toUpper = _revcomp seq :=
      List.map_congr_left (fun c hc => toUpper_dna (hvalid2 c hc)) |>.trans
        (List.map_id (_revcomp seq))
    rw [hup, hup2]
    have hw1 : ∀ w ∈ dna_windows s.ksize seq, _checkdna w = true :=
      fun w hw => checkdna_of_valid (mem_dna_windows_valid hvalid hw)
    have hw2 : ∀ w ∈ dna_windows s.ksize (_revcomp seq), _checkdna w = true :=
      fun w hw => checkdna_of_valid (mem_dna_windows_valid hvalid2 hw)
    rw [dna_loop_all_valid hf s.num s.max_hash s.seed force _ s.mins hw1,
      dna_loop_all_valid hf s.num s.max_hash s.seed force _ s.mins hw2]
    have hwin : dna_windows s.ksize (_revcomp seq)
        = ((dna_windows s.ksize seq).map _revcomp).reverse := dna_windows_revcomp _ _
    have hmapped : (dna_windows s.ksize (_revcomp seq)).map (fun w => hf (canonical w) s.seed)
        = ((dna_windows s.ksize seq).map (fun w => hf (canonical w) s.seed)).reverse := by
      rw [hwin, List.map_reverse, List.map_map]
      congr 1
      apply List.map_congr_left
      intro w hw
      simp only [Function.comp_apply]
      rw [canonical_revcomp (mem_dna_windows_valid hvalid hw)]
    rw [hmapped,
      add_many_mins_perm (List.reverse_perm _).symm hreg]

/-- A hash function exhibiting the C6 counterexample. -/
def hfc6 : String → Nat → Nat := fun w _ => if w = "A" then 1 else 2

/-- The C6 counterexample sketch: both `num = 1` and `max_hash = 10` active. -/
def c6s : KmerMinHash := ⟨1, 1, false, false, 42, 10, []⟩

/-- **C6, counterexample to the claim as stated.**  On a sketch with both
`num` and `max_hash` nonzero (a legal configuration), `add_sequence` is not
invariant under reverse complement: the hashes arrive in the opposite order
and a full sketch appends a new maximum without truncation
(`pos == cend()` branch) but truncates after a middle insertion, so
`"AC"` yields `mins = [1, 2]` while its reverse complement `"GT"` yields
`mins = [1]`. -/
theorem C6_counterexample :
    add_sequence hfc6 c6s ['A', 'C'] false = .ok { c6s with mins := [1, 2] }
    ∧ add_sequence hfc6 c6s (_revcomp ['A', 'C']) false = .ok { c6s with mins := [1] }
    ∧ add_sequence hfc6 c6s ['A', 'C'] false
        ≠ add_sequence hfc6 c6s (_revcomp ['A', 'C']) false := by
  refine ⟨?_, ?_, ?_⟩ <;> decide

/-- A single-regime scaled sketch for the C6 witness. -/
def c6w : KmerMinHash := ⟨0, 1, false, false, 42, 7, []⟩

theorem C6_witness :
    (c6w.is_protein = false
      ∧ (∀ c ∈ (['A', 'C'] : List Char), c ∈ dnaChars)
      ∧ (c6w.max_hash ≠ 0 ∧ c6w.num = 0 ∧ c6w.mins.Sorted (· < ·)))
    ∧ add_sequence hflen c6w ['A', 'C'] false
        = add_sequence hflen c6w (_revcomp ['A', 'C']) false :=
  ⟨⟨by decide, by decide, by decide, by decide, by simp [c6w]⟩,
    C6_add_sequence_revcomp hflen c6w ['A', 'C'] false (by decide) (by decide)
      (Or.inl ⟨by decide, by decide, by simp [c6w]⟩)⟩

/-! ### Comparing the two revisions (C9) and the protein path (C7) -/

/-- On the 64 standard codons the two revisions' tables yield identical
residues (the `find`-with-`X`-fallback of `src/sourmash` and the
`operator[]`-with-default of `src/sourmash_lib` agree whenever the codon is
present in both tables). -/
theorem codon_tables_agree :
    ∀ c1 ∈ dnaChars, ∀ c2 ∈ dnaChars, ∀ c3 ∈ dnaChars,
      codonResidue [c1, c2, c3]
        = ((_codon_table_lib.lookup (String.mk [c1, c2, c3])).getD "").toList := by
  decide

theorem dna_to_aa_lib_agree {dna : List Char} (hv : ∀ c ∈ dna, c ∈ dnaChars) :
    _dna_to_aa false dna = _dna_to_aa_lib dna := by
  unfold _dna_to_aa _dna_to_aa_lib
  congr 1
  apply List.map_congr_left
  intro j hj
  rw [List.mem_range] at hj
  simp only [Bool.false_eq_true, if_false]
  have hlen3 : ((dna.drop (3 * j)).take 3).length = 3 := by
    rw [List.length_take, List.length_drop]
    omega
  obtain ⟨a, b, c, habc⟩ := List.length_eq_three.mp hlen3
  have hm : ∀ x ∈ [a, b, c], x ∈ dnaChars := by
    rw [← habc]
    exact window_valid hv (3 * j) 3
  rw [habc]
  exact codon_tables_agree a (hm a (by simp)) b (hm b (by simp)) c (hm c (by simp))

theorem protein_words_lib_agree {ksize : Nat} {sq : List Char}
    (hv : ∀ c ∈ sq, c ∈ dnaChars) :
    protein_words false ksize sq = protein_words_lib ksize sq := by
  unfold protein_words protein_words_lib
  congr 1
  apply List.map_congr_left
  intro i hi
  rw [dna_to_aa_lib_agree (fun c hc => hv c ((List.drop_sublist i sq).mem hc)),
    dna_to_aa_lib_agree
      (fun c hc => (revcomp_valid hv) c ((List.drop_sublist i (_revcomp sq)).mem hc))]

/-- **C9, amended.**  For identical inputs drawn from the uppercase DNA
alphabet `{A, C, G, T}` (with Dayhoff disabled), the `add_sequence` of
`src/sourmash` and the `add_sequence` of `src/sourmash_lib` are
extensionally equal for every configuration, force flag and hash function.
(As stated over all inputs the claim fails: the newer revision uppercases
its input and handles ambiguous codons differently — see the
counterexample, which uses lowercase input.) -/
theorem C9_revisions_agree (hf : String → Nat → Nat) (s : KmerMinHash)
    (seq : List Char) (force : Bool)
    (hd : s.dayhoff = false)
    (hvalid : ∀ c ∈ seq, c ∈ dnaChars) :
    add_sequence hf s seq force = add_sequence_lib hf s seq force := by
  unfold add_sequence add_sequence_lib
  by_cases hshort : seq.length < s.ksize
  · rw [if_pos hshort, if_pos hshort]
  · rw [if_neg hshort, if_neg hshort]
    have hup : seq.map Char.toUpper = seq :=
      (List.map_congr_left (fun c hc => toUpper_dna (hvalid c hc))).trans (List.map_id seq)
    rw [hup]
    by_cases hprot : s.is_protein = false
    · rw [if_pos hprot, if_pos hprot,
        dna_loop_eq_lib_of_valid hf s.num s.max_hash s.seed force _ s.mins
          (fun w hw => checkdna_of_valid (mem_dna_windows_valid hvalid hw))]
    · rw [if_neg hprot, if_neg hprot, hd, protein_words_lib_agree hvalid]

/-- An empty DNA sketch with `ksize = 3`, for the C9 theorems. -/
def c9s : KmerMinHash := ⟨5, 3, false, false, 42, 0, []⟩

/-- **C9, counterexample to the claim as stated.**  On the lowercase input
`"acg"` the newer revision uppercases and hashes the canonical k-mer, while
the older revision (which does not uppercase) rejects the window as invalid
DNA and, under `force`, skips it: the two sketches differ. -/
theorem C9_counterexample :
    add_sequence hflen c9s ['a', 'c', 'g'] true = .ok { c9s with mins := [3] }
    ∧ add_sequence_lib hflen c9s ['a', 'c', 'g'] true = .ok { c9s with mins := [] }
    ∧ add_sequence hflen c9s ['a', 'c', 'g'] true
        ≠ add_sequence_lib hflen c9s ['a', 'c', 'g'] true := by
  refine ⟨?_, ?_, ?_⟩ <;> decide

theorem C9_witness :
    (c9s.dayhoff = false ∧ (∀ c ∈ (['A', 'C', 'G'] : List Char), c ∈ dnaChars))
    ∧ add_sequence hflen c9s ['A', 'C', 'G'] false
        = add_sequence_lib hflen c9s ['A', 'C', 'G'] false :=
  ⟨⟨by decide, by decide⟩,
    C9_revisions_agree hflen c9s ['A', 'C', 'G'] false (by decide) (by decide)⟩

/-- Modelled from the spec (claim C7): the translation behaviour the claim
describes for `add_sequence`, padding a two-nucleotide tail with `N` and
mapping a single leftover nucleotide to `X`. -/
def translate_padded (dayhoff : Bool) : List Char → List Char
  | c1 :: c2 :: c3 :: rest =>
    (if dayhoff then aa_to_dayhoff (codonResidue [c1, c2, c3])
     else codonResidue [c1, c2, c3]) ++ translate_padded dayhoff rest
  | [c1, c2] =>
    if dayhoff then aa_to_dayhoff (codonResidue [c1, c2, 'N'])
    else codonResidue [c1, c2, 'N']
  | [_] => ['X']
  | [] => []

/-- The translation `add_sequence` actually performs: complete codons only,
incomplete tails discarded without contributing a residue. -/
def translate_drop (dayhoff : Bool) : List Char → List Char
  | c1 :: c2 :: c3 :: rest =>
    (if dayhoff then aa_to_dayhoff (codonResidue [c1, c2, c3])
     else codonResidue [c1, c2, c3]) ++ translate_drop dayhoff rest
  | _ => []

/-- The six-frame word description of the amended C7 claim, phrased with the
structural `translate_drop` instead of the index-loop `_dna_to_aa`. -/
def spec_protein_words (dayhoff : Bool) (ksize : Nat) (sq : List Char) : List String :=
  ((List.range 3).map (fun i =>
    frame_words (ksize / 3) (translate_drop dayhoff (sq.drop i))
      ++ frame_words (ksize / 3) (translate_drop dayhoff ((_revcomp sq).drop i)))).flatten

theorem dna_to_aa_cons3 (d : Bool) (c1 c2 c3 : Char) (rest : List Char) :
    _dna_to_aa d (c1 :: c2 :: c3 :: rest)
      = (if d then aa_to_dayhoff (codonResidue [c1, c2, c3])
         else codonResidue [c1, c2, c3]) ++ _dna_to_aa d rest := by
  unfold _dna_to_aa
  have hlen : (c1 :: c2 :: c3 :: rest).length / 3 = rest.length / 3 + 1 := by
    simp only [List.length_cons]
    omega
  rw [hlen, List.range_succ_eq_map, List.map_cons, List.flatten_cons, List.map_map]
  have htail : ∀ j ∈ List.range (rest.length / 3),
      ((fun j =>
          (if d then aa_to_dayhoff
              (codonResidue (((c1 :: c2 :: c3 :: rest).drop (3 * j)).take 3))
           else codonResidue (((c1 :: c2 :: c3 :: rest).drop (3 * j)).take 3)))
        ∘ Nat.succ) j
      = (fun j =>
          (if d then aa_to_dayhoff (codonResidue ((rest.drop (3 * j)).take 3))
           else codonResidue ((rest.drop (3 * j)).take 3))) j := by
    intro j hj
    simp only [Function.comp_apply]
    rw [show 3 * (j + 1) = 3 * j + 1 + 1 + 1 from by ring,
      List.drop_succ_cons, List.drop_succ_cons, List.drop_succ_cons]
  rw [List.map_congr_left htail]
  rfl

theorem dna_to_aa_eq_translate_drop (d : Bool) (dna : List Char) :
    _dna_to_aa d dna = translate_drop d dna := by
  have H : ∀ (n : Nat) (l : List Char), l.length ≤ n → _dna_to_aa d l = translate_drop d l := by
    intro n
    induction n with
    | zero =>
      intro l hl
      have : l = [] := by
        cases l with
        | nil => rfl
        | cons x xs => simp at hl
      subst this
      rfl
    | succ n ih =>
      intro l hl
      match l with
      | [] => rfl
      | [c] => simp [_dna_to_aa, translate_drop]
      | [c1, c2] => simp [_dna_to_aa, translate_drop]
      | c1 :: c2 :: c3 :: rest =>
        rw [dna_to_aa_cons3, translate_drop]
        have hr : rest.length ≤ n := by
          simp only [List.length_cons] at hl
          omega
        rw [ih rest hr]
  exact H dna.length dna le_rfl

theorem lookup_mem_pairs : ∀ {l : List (String × String)} {k v : String},
    l.lookup k = some v → (k, v) ∈ l := by
  intro l
  induction l with
  | nil =>
    intro k v h
    simp [List.lookup] at h
  | cons p ps ih =>
    intro k v h
    obtain ⟨pk, pv⟩ := p
    simp only [List.lookup] at h
    split at h
    · rename_i hk
      simp only [Option.some.injEq] at h
      have hkk : k = pk := by simpa using hk
      subst hkk
      subst h
      exact List.mem_cons_self _ _
    · exact List.mem_cons_of_mem _ (ih h)

theorem codon_table_residue_length : ∀ p ∈ _codon_table, p.2.toList.length = 1 := by
  decide

theorem dayhoff_table_residue_length : ∀ p ∈ _dayhoff_table, p.2.toList.length = 1 := by
  decide

theorem codonResidue_length (c : List Char) : (codonResidue c).length = 1 := by
  unfold codonResidue
  cases hl : _codon_table.lookup (String.mk c) with
  | none => rfl
  | some r => exact codon_table_residue_length _ (lookup_mem_pairs hl)

theorem aa_to_dayhoff_length (aa : List Char) : (aa_to_dayhoff aa).length = 1 := by
  unfold aa_to_dayhoff
  cases hl : _dayhoff_table.lookup (String.mk aa) with
  | none => rfl
  | some r => exact dayhoff_table_residue_length _ (lookup_mem_pairs hl)

theorem sum_map_one {α : Type} (l : List α) : (l.map (fun _ => (1 : Nat))).sum = l.length := by
  induction l with
  | nil => rfl
  | cons x xs ih =>
    simp [ih]
    omega

theorem dna_to_aa_length (d : Bool) (dna : List Char) :
    (_dna_to_aa d dna).length = dna.length / 3 := by
  unfold _dna_to_aa
  rw [List.length_flatten, List.map_map]
  have h1 : ∀ j ∈ List.range (dna.length / 3),
      (List.length ∘ fun j =>
        (if d then aa_to_dayhoff (codonResidue ((dna.drop (3 * j)).take 3))
         else codonResidue ((dna.drop (3 * j)).take 3))) j = (fun _ => (1 : Nat)) j := by
    intro j _
    simp only [Function.comp_apply]
    cases d
    · simp [codonResidue_length]
    · simp [aa_to_dayhoff_length]
  rw [List.map_congr_left h1, sum_map_one, List.length_range]

theorem protein_words_eq_spec (d : Bool) (k : Nat) (sq : List Char) :
    protein_words d k sq = spec_protein_words d k sq := by
  unfold protein_words spec_protein_words
  congr 1
  apply List.map_congr_left
  intro i hi
  rw [dna_to_aa_eq_translate_drop, dna_to_aa_eq_translate_drop]

/-- **C7, amended.**  For a protein-moltype sketch given nucleotide input,
`add_sequence` translates all three forward frames and all three
reverse-complement frames, using amino-acid k-mer length `⌊ksize / 3⌋`;
every complete codon is translated by the codon table (with `X` for unknown
codons); incomplete tails of length 1 or 2 are *discarded* without
contributing a residue — the `N`-padding and `X` cases of `translate_codon`
are unreachable from `add_sequence`, whose `_dna_to_aa` loop floors the
length to complete codons, so the translated frame always has exactly
`⌊frame length / 3⌋` residues.  (The claim's padded-tail behaviour is
refuted by the counterexample.) -/
theorem C7_protein_translation (hf : String → Nat → Nat) :
    (∀ (d : Bool) (dna : List Char), _dna_to_aa d dna = translate_drop d dna)
    ∧ (∀ (d : Bool) (dna : List Char), (_dna_to_aa d dna).length = dna.length / 3)
    ∧ (∀ (s : KmerMinHash) (seq : List Char) (force : Bool), s.is_protein = true →
        add_sequence hf s seq force
          = if seq.length < s.ksize then .ok s
            else .ok { s with mins := (add_many_mins s.num s.max_hash s.mins
                ((spec_protein_words s.dayhoff s.ksize (seq.map Char.toUpper)).map
                  (fun w => hf w s.seed))) }) := by
  refine ⟨dna_to_aa_eq_translate_drop, dna_to_aa_length, ?_⟩
  intro s seq force hprot
  unfold add_sequence
  by_cases hshort : seq.length < s.ksize
  · rw [if_pos hshort, if_pos hshort]
  · rw [if_neg hshort, if_neg hshort, if_neg (by simp [hprot]), protein_words_eq_spec]

/-- **C7, counterexample to the claim as stated.**  The input `TTTA` has one
complete codon (`TTT`, phenylalanine `F`) and a one-nucleotide tail `A`;
the claim says the tail yields residue `X`, but `_dna_to_aa` (the
translation `add_sequence` performs on every frame) floors the length and
produces `F` alone. -/
theorem C7_counterexample :
    _dna_to_aa false ['T', 'T', 'T', 'A'] = ['F']
    ∧ translate_padded false ['T', 'T', 'T', 'A'] = ['F', 'X']
    ∧ _dna_to_aa false ['T', 'T', 'T', 'A'] ≠ translate_padded false ['T', 'T', 'T', 'A'] := by
  refine ⟨?_, ?_, ?_⟩ <;> decide

/-- An empty protein sketch with `ksize = 3`, for the C7 witness. -/
def c7s : KmerMinHash := ⟨0, 3, true, false, 42, 0, []⟩

theorem C7_witness :
    (c7s.is_protein = true
      ∧ _dna_to_aa false ['T', 'T', 'T'] = translate_drop false ['T', 'T', 'T']
      ∧ (_dna_to_aa false ['T', 'T', 'T', 'A']).length = 4 / 3)
    ∧ add_sequence hflen c7s ['T', 'T', 'T'] false
        = if (['T', 'T', 'T'] : List Char).length < c7s.ksize then .ok c7s
          else .ok { c7s with mins := (add_many_mins c7s.num c7s.max_hash c7s.mins
              ((spec_protein_words c7s.dayhoff c7s.ksize
                  (['T', 'T', 'T'].map Char.toUpper)).map (fun w => hflen w c7s.seed))) } :=
  ⟨⟨by decide, (C7_protein_translation hflen).1 false ['T', 'T', 'T'],
      (C7_protein_translation hflen).2.1 false ['T', 'T', 'T', 'A']⟩,
    (C7_protein_translation hflen).2.2 c7s ['T', 'T', 'T'] false (by decide)⟩
